/-
Verification of the Notion-with-Markdown repository core against its
natural-language specification. The development shallowly embeds the
JavaScript sources:

  * src/server/utils/crypto.js     -- encrypt / decrypt (token layout, base64)
  * src/server/utils/validator.js  -- extractPageId
  * src/server/services/storage.js -- StorageService (pages, history, api key)
  * src/server/services/notion.js  -- createPage / appendBlocks batching

Strings are modelled as lists of characters, byte buffers as lists of
naturals below 256, and the AES-256-CBC primitive of the Node crypto
library as an abstract symmetric cipher with an explicit initialization
vector argument (the source draws the iv from crypto.randomBytes).
-/
import Mathlib

namespace NWM

/-! Base64, modelling Node `Buffer.prototype.toString('base64')` and
`Buffer.from(s, 'base64')` as used by crypto.js. -/

/-- The base64 digit alphabet; index `i` holds the digit of value `i`. -/
def b64Alphabet : List Char :=
  "ABCDEFGHIJKLMNOPQRSTUVWXYZabcdefghijklmnopqrstuvwxyz0123456789+/".toList

/-- Character for a six-bit value. -/
def sextetChar (n : Nat) : Char := b64Alphabet.getD n 'A'

/-- Value of a base64 digit, `none` for characters outside the alphabet
(Node's decoder skips those, including the padding sign). -/
def charSextet (c : Char) : Option Nat := b64Alphabet.indexOf? c

/-- Base64 encoding of a byte buffer, three bytes at a time, with padding. -/
def b64encode : List Nat → List Char
  | [] => []
  | [a] => [sextetChar (a / 4), sextetChar (a % 4 * 16), '=', '=']
  | [a, b] => [sextetChar (a / 4), sextetChar (a % 4 * 16 + b / 16), sextetChar (b % 16 * 4), '=']
  | a :: b :: c :: rest =>
      sextetChar (a / 4) :: sextetChar (a % 4 * 16 + b / 16) ::
      sextetChar (b % 16 * 4 + c / 64) :: sextetChar (c % 64) :: b64encode rest

/-- Reassemble bytes from a list of six-bit values, four at a time. -/
def b64decodeCore : List Nat → List Nat
  | a :: b :: c :: d :: rest =>
      (a * 4 + b / 16) :: (b % 16 * 16 + c / 4) :: (c % 4 * 64 + d) :: b64decodeCore rest
  | [a, b] => [a * 4 + b / 16]
  | [a, b, c] => [a * 4 + b / 16, b % 16 * 16 + c / 4]
  | _ => []

/-- Base64 decoding; characters outside the alphabet are skipped. -/
def b64decode (s : List Char) : List Nat :=
  b64decodeCore (s.filterMap charSextet)

theorem b64Alphabet_length : b64Alphabet.length = 64 := by decide

theorem charSextet_sextetChar (n : Nat) (h : n < 64) : charSextet (sextetChar n) = some n := by
  have hfin : ∀ i : Fin 64, charSextet (sextetChar i.val) = some i.val := by decide
  exact hfin ⟨n, h⟩

theorem charSextet_pad : charSextet '=' = none := by decide

theorem sextetChar_ne_colon (n : Nat) : sextetChar n ≠ ':' := by
  rcases Nat.lt_or_ge n 64 with h | h
  · have hfin : ∀ i : Fin 64, sextetChar i.val ≠ ':' := by decide
    exact hfin ⟨n, h⟩
  · have : sextetChar n = 'A' := by
      unfold sextetChar
      exact List.getD_eq_default _ _ (by rw [b64Alphabet_length]; exact h)
    rw [this]; decide

/-- Base64 decoding inverts encoding on genuine byte buffers. -/
theorem b64decode_encode : ∀ bs : List Nat, (∀ b ∈ bs, b < 256) →
    b64decode (b64encode bs) = bs
  | [], _ => rfl
  | [a], h => by
    have ha : a < 256 := h a (by simp)
    simp only [b64encode, b64decode, List.filterMap_cons,
      charSextet_sextetChar (a / 4) (by omega),
      charSextet_sextetChar (a % 4 * 16) (by omega), charSextet_pad,
      List.filterMap_nil, b64decodeCore]
    congr 1
    omega
  | [a, b], h => by
    have ha : a < 256 := h a (by simp)
    have hb : b < 256 := h b (by simp)
    simp only [b64encode, b64decode, List.filterMap_cons,
      charSextet_sextetChar (a / 4) (by omega),
      charSextet_sextetChar (a % 4 * 16 + b / 16) (by omega),
      charSextet_sextetChar (b % 16 * 4) (by omega), charSextet_pad,
      List.filterMap_nil, b64decodeCore]
    congr 1
    · omega
    · congr 1; omega
  | a :: b :: c :: rest, h => by
    have ha : a < 256 := h a (by simp)
    have hb : b < 256 := h b (by simp)
    have hc : c < 256 := h c (by simp)
    have ih := b64decode_encode rest (fun x hx => h x (by simp [hx]))
    simp only [b64encode, b64decode, List.filterMap_cons,
      charSextet_sextetChar (a / 4) (by omega),
      charSextet_sextetChar (a % 4 * 16 + b / 16) (by omega),
      charSextet_sextetChar (b % 16 * 4 + c / 64) (by omega),
      charSextet_sextetChar (c % 64) (by omega), b64decodeCore]
    simp only [b64decode] at ih
    rw [ih]
    congr 1
    · omega
    · congr 1
      · omega
      · congr 1; omega

/-- Every character emitted by the encoder differs from the token delimiter. -/
theorem b64encode_ne_colon : ∀ bs : List Nat, ∀ ch ∈ b64encode bs, ch ≠ ':'
  | [] => by simp [b64encode]
  | [a] => by
    simp only [b64encode, List.mem_cons, List.not_mem_nil, or_false]
    rintro ch (rfl | rfl | rfl | rfl) <;> first | exact sextetChar_ne_colon _ | decide
  | [a, b] => by
    simp only [b64encode, List.mem_cons, List.not_mem_nil, or_false]
    rintro ch (rfl | rfl | rfl | rfl) <;> first | exact sextetChar_ne_colon _ | decide
  | a :: b :: c :: rest => by
    simp only [b64encode, List.mem_cons]
    rintro ch (rfl | rfl | rfl | rfl | hm)
    · exact sextetChar_ne_colon _
    · exact sextetChar_ne_colon _
    · exact sextetChar_ne_colon _
    · exact sextetChar_ne_colon _
    · exact b64encode_ne_colon rest ch hm

theorem b64encode_ne_nil : ∀ bs : List Nat, bs ≠ [] → b64encode bs ≠ []
  | [], h => absurd rfl h
  | [_], _ => by simp [b64encode]
  | [_, _], _ => by simp [b64encode]
  | _ :: _ :: _ :: _, _ => by simp [b64encode]

/-! Generic scanner lemmas used for the ':' token split and for the regex
segment consumption of the extractor. -/

theorem takeWhile_append_sep {α : Type} {p : α → Bool} {a : List α} {x : α} {b : List α}
    (ha : ∀ c ∈ a, p c = true) (hx : p x = false) :
    (a ++ x :: b).takeWhile p = a := by
  induction a with
  | nil => simp [List.takeWhile_cons, hx]
  | cons y ys ih =>
    have ih' := ih (fun c hc => ha c (by simp [hc]))
    simp [List.takeWhile_cons, ha y (by simp), ih']

theorem dropWhile_append_sep {α : Type} {p : α → Bool} {a : List α} {x : α} {b : List α}
    (ha : ∀ c ∈ a, p c = true) (hx : p x = false) :
    (a ++ x :: b).dropWhile p = x :: b := by
  induction a with
  | nil => simp [List.dropWhile_cons, hx]
  | cons y ys ih =>
    simp only [List.cons_append, List.dropWhile_cons, ha y (by simp)]
    exact ih (fun c hc => ha c (by simp [hc]))

theorem takeWhile_eq_self {α : Type} {p : α → Bool} {l : List α}
    (h : ∀ c ∈ l, p c = true) : l.takeWhile p = l := by
  induction l with
  | nil => rfl
  | cons y ys ih =>
    have ih' := ih (fun c hc => h c (by simp [hc]))
    simp [List.takeWhile_cons, h y (by simp), ih']

/-! The secret cipher (crypto.js). -/

/-- The AES-256-CBC primitive from Node's crypto module, abstracted: `enc iv pt`
is the ciphertext buffer for plaintext `pt` under initialization vector `iv`
(the key, derived by sha256 from the configured passphrase, is fixed), and
`dec` inverts it. -/
structure CipherPrim where
  enc : List Nat → List Char → List Nat
  dec : List Nat → List Nat → List Char
  dec_enc : ∀ iv pt, dec iv (enc iv pt) = pt

/-- js crypto.js encrypt: falsy guard, fresh random iv (passed explicitly
here), token layout base64(iv) ++ ':' ++ base64(ciphertext). -/
def encrypt (prim : CipherPrim) (iv : List Nat) : Option (List Char) → Option (List Char)
  | none => none
  | some t =>
    if t = [] then none
    else some (b64encode iv ++ ':' :: b64encode (prim.enc iv t))

/-- The first part of the token split on ':' (js ivBase64). -/
def tokenIv (s : List Char) : List Char := s.takeWhile (fun c => c != ':')

/-- The second part of the token split on ':' (js encrypted): the text between
the first ':' and the next ':' or the end; `none` when the token holds no ':'
at all (the destructured second field is then undefined). -/
def tokenEnc (s : List Char) : Option (List Char) :=
  match s.dropWhile (fun c => c != ':') with
  | [] => none
  | _ :: r => some (r.takeWhile (fun c => c != ':'))

/-- js crypto.js decrypt: falsy guard; split the token on ':'; when either of
the first two parts is missing or empty the source throws
"Invalid encrypted text format", modelled as `Except.error ()`. -/
def decrypt (prim : CipherPrim) : Option (List Char) → Except Unit (Option (List Char))
  | none => Except.ok none
  | some s =>
    if s = [] then Except.ok none
    else
      match tokenEnc s with
      | none => Except.error ()
      | some encPart =>
        if tokenIv s = [] ∨ encPart = [] then Except.error ()
        else Except.ok (some (prim.dec (b64decode (tokenIv s)) (b64decode encPart)))

/-- A concrete symmetric cipher used to instantiate `CipherPrim` in witnesses:
each character is stored as its code point. -/
def demoCipher : CipherPrim where
  enc := fun _ pt => pt.map Char.toNat
  dec := fun _ ct => ct.map Char.ofNat
  dec_enc := by
    intro iv pt
    show (pt.map Char.toNat).map Char.ofNat = pt
    rw [List.map_map]
    exact List.map_id'' Char.ofNat_toNat pt

/-! The persistent store (storage.js). Ids and timestamps are generated
externally in the source (nanoid, dayjs); the operations take them as
explicit arguments. History titles are lists of characters because
getHistory performs case-insensitive substring search on them. -/

structure Config where
  apiKey : Option (List Char)
  defaultPageId : Option String
deriving Repr

structure Settings where
  autoOpenNotion : Bool
  autoClearInput : Bool
  maxFileSize : Nat
deriving Repr

structure Page where
  id : String
  name : String
  pageId : String
  url : Option String
  isDefault : Bool
  createdAt : Nat
  updatedAt : Option Nat
deriving Repr

structure HistoryRecord where
  id : String
  title : List Char
  pageConfigId : Option String
  notionPageId : Option String
  notionUrl : Option String
  status : String
  error : Option String
  createdAt : Nat
deriving Repr

structure Store where
  config : Config
  pages : List Page
  history : List HistoryRecord
  settings : Settings
deriving Repr

/-- js storage.js defaultData. -/
def defaultData : Store :=
  { config := { apiKey := none, defaultPageId := none }
    pages := []
    history := []
    settings := { autoOpenNotion := false, autoClearInput := true, maxFileSize := 10485760 } }

/-- js: hasApiKey returns the double negation of the stored ciphertext, so a
stored empty string would also read as false. -/
def hasApiKey (s : Store) : Bool :=
  match s.config.apiKey with
  | none => false
  | some c => c != []

/-- js: getApiKey decrypts the stored ciphertext when it is truthy. -/
def getApiKey (prim : CipherPrim) (s : Store) : Except Unit (Option (List Char)) :=
  match s.config.apiKey with
  | none => Except.ok none
  | some c => if c = [] then Except.ok none else decrypt prim (some c)

/-- js: setApiKey stores encrypt(apiKey) for truthy input and null otherwise. -/
def setApiKey (prim : CipherPrim) (iv : List Nat) (s : Store) (apiKey : Option (List Char)) :
    Store :=
  let stored := match apiKey with
    | none => none
    | some k => if k = [] then none else encrypt prim iv (some k)
  { s with config := { s.config with apiKey := stored } }

/-- Caller-supplied fields of addPage. `isDefault` is optional in the route
schema; the source reads `page.isDefault || false`. -/
structure PageInput where
  name : String
  pageId : String
  url : Option String
  isDefault : Option Bool
deriving Repr

/-- js: pages.findIndex(...) followed by splice(index, 1), i.e. remove the
first element satisfying the test, returning it and the remaining list. -/
def popFirst {α : Type} (pred : α → Bool) : List α → Option (α × List α)
  | [] => none
  | x :: xs =>
    if pred x then some (x, xs)
    else match popFirst pred xs with
      | none => none
      | some (y, ys) => some (y, x :: ys)

/-- js: pages.findIndex(...) followed by in-place mutation of that element;
returns the rewritten list together with the new element. -/
def updateFirst {α : Type} (pred : α → Bool) (f : α → α) : List α → Option (List α × α)
  | [] => none
  | x :: xs =>
    if pred x then some (f x :: xs, f x)
    else match updateFirst pred f xs with
      | none => none
      | some (ys, y) => some (x :: ys, y)

/-- The page object built by addPage before the default bookkeeping. -/
def mkNewPage (freshId : String) (now : Nat) (input : PageInput) : Page :=
  { id := freshId, name := input.name, pageId := input.pageId
    url := input.url, isDefault := input.isDefault.getD false
    createdAt := now, updatedAt := none }

/-- js storage.js addPage. The fresh nanoid and the timestamp are arguments.
When the new page is marked default or the collection was empty, every
existing page is demoted, the new page is forced default and the default
pointer moves to it. -/
def addPage (s : Store) (freshId : String) (now : Nat) (input : PageInput) :
    Store × Page :=
  if (mkNewPage freshId now input).isDefault || s.pages.isEmpty then
    ({ s with
        pages := s.pages.map (fun p => { p with isDefault := false })
          ++ [{ mkNewPage freshId now input with isDefault := true }]
        config := { s.config with defaultPageId := some freshId } },
     { mkNewPage freshId now input with isDefault := true })
  else
    ({ s with pages := s.pages ++ [mkNewPage freshId now input] },
     mkNewPage freshId now input)

/-- Partial update fields accepted by updatePage (route body: name, isDefault;
the merge in the source is a plain Object.assign of present fields). -/
structure PageUpdates where
  name : Option String
  pageId : Option String
  url : Option (Option String)
  isDefault : Option Bool
deriving Repr

/-- js: Object.assign(page, updates, updatedAt stamp). -/
def applyUpdates (u : PageUpdates) (now : Nat) (p : Page) : Page :=
  { p with
    name := u.name.getD p.name
    pageId := u.pageId.getD p.pageId
    url := u.url.getD p.url
    isDefault := u.isDefault.getD p.isDefault
    updatedAt := some now }

/-- js storage.js updatePage: not-found yields null and leaves the store
unchanged; a truthy updates.isDefault demotes every other page and moves the
default pointer. -/
def updatePage (s : Store) (id : String) (u : PageUpdates) (now : Nat) :
    Store × Option Page :=
  match updateFirst (fun p => p.id == id) (applyUpdates u now) s.pages with
  | none => (s, none)
  | some (pages1, page) =>
    if u.isDefault = some true then
      let pages2 := pages1.map (fun p => if p.id == id then p else { p with isDefault := false })
      ({ s with pages := pages2
                config := { s.config with defaultPageId := some id } }, some page)
    else ({ s with pages := pages1 }, some page)

/-- js storage.js deletePage: not-found yields false; when the deleted page
was default and pages remain the first remaining page is promoted, and when
no page remains the default pointer is cleared. -/
def deletePage (s : Store) (id : String) : Store × Bool :=
  match popFirst (fun p => p.id == id) s.pages with
  | none => (s, false)
  | some (removed, rest) =>
    match rest with
    | [] => ({ s with pages := [], config := { s.config with defaultPageId := none } }, true)
    | q :: qs =>
      if removed.isDefault then
        ({ s with pages := { q with isDefault := true } :: qs
                  config := { s.config with defaultPageId := some q.id } }, true)
      else ({ s with pages := q :: qs }, true)

/-- js storage.js getDefaultPage. -/
def getDefaultPage (s : Store) : Option Page :=
  s.pages.find? (fun p => p.isDefault)

/-- Caller-supplied fields of addHistory. -/
structure HistoryInput where
  title : List Char
  pageConfigId : Option String
  notionPageId : Option String
  notionUrl : Option String
  status : String
  error : Option String
deriving Repr

/-- The record built by addHistory from its input, fresh id and timestamp. -/
def mkHistoryRecord (freshId : String) (now : Nat) (r : HistoryInput) : HistoryRecord :=
  { id := freshId, title := r.title, pageConfigId := r.pageConfigId
    notionPageId := r.notionPageId, notionUrl := r.notionUrl
    status := r.status, error := r.error, createdAt := now }

/-- js storage.js addHistory: unshift the new record, then keep only the
first 100 records when the collection overflows. -/
def addHistory (s : Store) (freshId : String) (now : Nat) (r : HistoryInput) :
    Store × HistoryRecord :=
  let newRecord := mkHistoryRecord freshId now r
  let history1 := newRecord :: s.history
  let history2 := if history1.length > 100 then history1.take 100 else history1
  ({ s with history := history2 }, newRecord)

/-- js String.prototype.includes: `needle` occurs contiguously in the text. -/
def isSubstring (needle : List Char) : List Char → Bool
  | [] => needle.isEmpty
  | c :: rest => needle.isPrefixOf (c :: rest) || isSubstring needle rest

/-- js: h.title.toLowerCase().includes(search.toLowerCase()). -/
def titleMatches (search : List Char) (h : HistoryRecord) : Bool :=
  isSubstring (search.map Char.toLower) (h.title.map Char.toLower)

/-- js storage.js getHistory: filter on a truthy search text first, then
slice(0, limit). -/
def getHistory (s : Store) (limit : Nat) (search : List Char) : List HistoryRecord :=
  (if search ≠ [] then s.history.filter (titleMatches search) else s.history).take limit

/-! The identifier extractor (validator.js extractPageId). The four regex
tests are embedded as functions with the same matching semantics: anchored
full matches for the first two, leftmost search with greedy backtracking for
the last two. -/

/-- Character class [a-f0-9] under the /i flag. -/
def isHexDigit (c : Char) : Bool :=
  ('0' ≤ c && c ≤ '9') || ('a' ≤ c && c ≤ 'f') || ('A' ≤ c && c ≤ 'F')

/-- js regex /^[a-f0-9]\x7b32\x7d$/i. -/
def isHex32 (s : List Char) : Bool :=
  s.length == 32 && s.all isHexDigit

/-- Anchored match of dash-separated hex groups of the given sizes. -/
def matchGroups : List Nat → List Char → Bool
  | [], s => s.isEmpty
  | [n], s => s.length == n && s.all isHexDigit
  | n :: ns, s =>
    (s.take n).length == n && (s.take n).all isHexDigit &&
      match s.drop n with
      | c :: r => c == '-' && matchGroups ns r
      | [] => false

/-- js regex for the dashed UUID shape, groups 8-4-4-4-12. -/
def isDashedUuid (s : List Char) : Bool :=
  matchGroups [8, 4, 4, 4, 12] s

/-- js String.prototype.trim character set (ASCII part). -/
def isJsWs (c : Char) : Bool :=
  c == ' ' || c == '\t' || c == '\n' || c == '\r' || c == '\x0b' || c == '\x0c'

/-- js String.prototype.trim. -/
def jsTrim (s : List Char) : List Char :=
  ((s.dropWhile isJsWs).reverse.dropWhile isJsWs).reverse

/-- Match of the 32-hex capture group at the current position: regex
[a-f0-9]\x7b32\x7d, returning the captured run. -/
def hex32Here (t : List Char) : Option (List Char) :=
  if (t.take 32).length == 32 && (t.take 32).all isHexDigit then some (t.take 32) else none

/-- One greedy iteration of ([^-]+-): consume up to and including the first
dash, provided at least one character precedes it. -/
def consumeSegDash (t : List Char) : Option (List Char) :=
  match t.dropWhile (fun c => c != '-') with
  | _ :: r => if t.takeWhile (fun c => c != '-') = [] then none else some r
  | [] => none

theorem consumeSegDash_length {t t' : List Char} (h : consumeSegDash t = some t') :
    t'.length < t.length := by
  unfold consumeSegDash at h
  rcases hd : t.dropWhile (fun c => c != '-') with _ | ⟨x, r⟩ <;> rw [hd] at h
  · exact absurd h (by simp)
  · rcases hp : t.takeWhile (fun c => c != '-') with _ | _ <;> rw [hp] at h
    · exact absurd h (by simp)
    · simp only [reduceCtorEq, if_false, Option.some.injEq] at h
      subst h
      have hsplit : t.takeWhile (fun c => c != '-') ++ t.dropWhile (fun c => c != '-') = t :=
        List.takeWhile_append_dropWhile (fun c => c != '-') t
      have := congrArg List.length hsplit
      simp only [List.length_append, hp, hd, List.length_cons] at this
      omega

/-- Backtracking for (?:[^-]+-)*([a-f0-9]\x7b32\x7d): the greedy star tries
the deepest position first and retreats one segment at a time. -/
def starDashHex (t : List Char) : Option (List Char) :=
  match h : consumeSegDash t with
  | some t' => starDashHex t' <|> hex32Here t
  | none => hex32Here t
termination_by t.length
decreasing_by exact consumeSegDash_length h

/-- Matching after the literal notion.so/ : the optional greedy group
(?:[^/]+\/)? is tried first when a slash is available, then the slug star. -/
def afterNotionSo (t : List Char) : Option (List Char) :=
  match t.dropWhile (fun c => c != '/') with
  | _ :: r =>
    if t.takeWhile (fun c => c != '/') = [] then starDashHex t
    else starDashHex r <|> starDashHex t
  | [] => starDashHex t

/-- The literal notion.so/ of the URL regex. -/
def notionLit : List Char := ['n', 'o', 't', 'i', 'o', 'n', '.', 's', 'o', '/']

/-- Case-insensitive literal match, returning the remaining text. -/
def matchLit : List Char → List Char → Option (List Char)
  | [], t => some t
  | _ :: _, [] => none
  | l :: ls, c :: ts => if c.toLower == l.toLower then matchLit ls ts else none

/-- Whole URL pattern anchored at the current position. -/
def tryNotionAt (t : List Char) : Option (List Char) :=
  match matchLit notionLit t with
  | some r => afterNotionSo r
  | none => none

/-- js regex search (leftmost match) for
notion\.so\/(?:[^\/]+\/)?(?:[^-]+-)*([a-f0-9]\x7b32\x7d) with /i. -/
def searchNotion : List Char → Option (List Char)
  | [] => none
  | c :: ts => tryNotionAt (c :: ts) <|> searchNotion ts

/-- The trailing-run pattern ([a-f0-9]\x7b32\x7d)(?:\?|$) anchored at the
current position. -/
def hex32End (t : List Char) : Option (List Char) :=
  match hex32Here t with
  | some h =>
    match t.drop 32 with
    | [] => some h
    | c :: _ => if c == '?' then some h else none
  | none => none

/-- js regex search (leftmost match) for ([a-f0-9]\x7b32\x7d)(?:\?|$) with /i. -/
def searchLastHex : List Char → Option (List Char)
  | [] => none
  | c :: ts => hex32End (c :: ts) <|> searchLastHex ts

/-- js: trimmed.replace of every dash with the empty string. -/
def removeDashes (s : List Char) : List Char := s.filter (fun c => c != '-')

/-- js validator.js extractPageId: falsy guard, trim, then the four rules in
order with first match winning. -/
def extractPageId (input : List Char) : Option (List Char) :=
  if input = [] then none
  else if isHex32 (jsTrim input) then some (jsTrim input)
  else if isDashedUuid (jsTrim input) then some (removeDashes (jsTrim input))
  else
    match searchNotion (jsTrim input) with
    | some h => some h
    | none => searchLastHex (jsTrim input)

/-! The remote publisher batching (notion.js). Only the sequence of remote
calls and their block payloads is modelled; block contents are opaque. -/

/-- Maximum blocks per API call (Notion limitation), notion.js line 9. -/
def MAX_BLOCKS_PER_REQUEST : Nat := 100

/-- One remote call issued while publishing: the page creation call with its
inlined children, or one blocks.children.append call. -/
inductive NotionCall (α : Type) where
  | create (children : List α)
  | append (children : List α)
deriving Repr

/-- The block payload of a remote call. -/
def NotionCall.children {α : Type} : NotionCall α → List α
  | NotionCall.create bs => bs
  | NotionCall.append bs => bs

/-- js notion.js appendBlocks: the for-loop walks the list in strides of
MAX_BLOCKS_PER_REQUEST and issues one append call per slice, in order. -/
def appendBatches {α : Type} : List α → List (List α)
  | [] => []
  | b :: bs =>
    (b :: bs).take MAX_BLOCKS_PER_REQUEST ::
      appendBatches ((b :: bs).drop MAX_BLOCKS_PER_REQUEST)
termination_by l => l.length
decreasing_by
  simp [List.length_drop, MAX_BLOCKS_PER_REQUEST]
  omega

/-- js notion.js createPage: the first MAX_BLOCKS_PER_REQUEST blocks are
inlined into the pages.create call; the remainder goes through appendBlocks
when non-empty. -/
def createPageCalls {α : Type} (blocks : List α) : List (NotionCall α) :=
  NotionCall.create (blocks.take MAX_BLOCKS_PER_REQUEST) ::
    (if (blocks.drop MAX_BLOCKS_PER_REQUEST).length > 0 then
      (appendBatches (blocks.drop MAX_BLOCKS_PER_REQUEST)).map NotionCall.append
    else [])

/-! Facts about the publish batching. -/

theorem appendBatches_ne_nil_eq {α : Type} (l : List α) (h : l ≠ []) :
    appendBatches l = l.take MAX_BLOCKS_PER_REQUEST ::
      appendBatches (l.drop MAX_BLOCKS_PER_REQUEST) := by
  cases l with
  | nil => exact absurd rfl h
  | cons b bs => rw [appendBatches]

theorem join_appendBatches {α : Type} : ∀ l : List α, (appendBatches l).flatten = l
  | [] => by rw [appendBatches]; rfl
  | b :: bs => by
    rw [appendBatches, List.flatten_cons,
      join_appendBatches ((b :: bs).drop MAX_BLOCKS_PER_REQUEST)]
    exact List.take_append_drop _ _
termination_by l => l.length
decreasing_by simp [List.length_drop, MAX_BLOCKS_PER_REQUEST]; omega

theorem appendBatches_mem_length {α : Type} : ∀ (l bs : List α),
    bs ∈ appendBatches l → bs.length ≤ MAX_BLOCKS_PER_REQUEST
  | [], bs, h => by rw [appendBatches] at h; exact absurd h (List.not_mem_nil bs)
  | b :: cs, bs, h => by
    rw [appendBatches] at h
    rcases List.mem_cons.mp h with rfl | h'
    · exact List.length_take_le _ _
    · exact appendBatches_mem_length _ bs h'
termination_by l => l.length
decreasing_by simp [List.length_drop, MAX_BLOCKS_PER_REQUEST]; omega

/-- C6: For every block list, publishing splits it into batches of at most
100 blocks issued in order, with the first batch inlined into the
page-creation call and the remainder sent via appendBlocks; for a 250-block
input exactly 3 remote calls are made (1 create carrying 100 blocks, then
appends of 100 and 50), and the concatenation of the blocks across the calls
equals the original list in order. -/
theorem C6_createPage_batching {α : Type} (blocks : List α) :
    (∃ tail, createPageCalls blocks
        = NotionCall.create (blocks.take MAX_BLOCKS_PER_REQUEST) :: tail
      ∧ ∀ c ∈ tail, ∃ bs, c = NotionCall.append bs)
  ∧ (∀ c ∈ createPageCalls blocks, c.children.length ≤ 100)
  ∧ ((createPageCalls blocks).map NotionCall.children).flatten = blocks
  ∧ (blocks.length = 250 →
      (createPageCalls blocks).length = 3
      ∧ (createPageCalls blocks).map (fun c => c.children.length) = [100, 100, 50]
      ∧ ∃ c2 c3, createPageCalls blocks
          = [NotionCall.create (blocks.take 100), NotionCall.append c2, NotionCall.append c3]
          ∧ blocks.take 100 ++ (c2 ++ c3) = blocks) := by
  refine ⟨?_, ?_, ?_, ?_⟩
  · refine ⟨_, rfl, ?_⟩
    intro c hc
    by_cases hr : (blocks.drop MAX_BLOCKS_PER_REQUEST).length > 0
    · rw [if_pos hr] at hc
      obtain ⟨bs, _, rfl⟩ := List.mem_map.mp hc
      exact ⟨bs, rfl⟩
    · rw [if_neg hr] at hc
      exact absurd hc (List.not_mem_nil c)
  · intro c hc
    unfold createPageCalls at hc
    rcases List.mem_cons.mp hc with rfl | hc'
    · exact List.length_take_le _ _
    · by_cases hr : (blocks.drop MAX_BLOCKS_PER_REQUEST).length > 0
      · rw [if_pos hr] at hc'
        obtain ⟨bs, hbs, rfl⟩ := List.mem_map.mp hc'
        exact appendBatches_mem_length _ bs hbs
      · rw [if_neg hr] at hc'
        exact absurd hc' (List.not_mem_nil c)
  · unfold createPageCalls
    by_cases hr : (blocks.drop MAX_BLOCKS_PER_REQUEST).length > 0
    · rw [if_pos hr]
      simp only [List.map_cons, List.flatten_cons, NotionCall.children]
      have hmap : (appendBatches (blocks.drop MAX_BLOCKS_PER_REQUEST)).map
          (NotionCall.children ∘ (NotionCall.append : List α → NotionCall α))
          = appendBatches (blocks.drop MAX_BLOCKS_PER_REQUEST) := by
        apply List.map_id''
        intro bs
        rfl
      rw [List.map_map, hmap, join_appendBatches]
      exact List.take_append_drop _ _
    · rw [if_neg hr]
      have hdrop : blocks.drop MAX_BLOCKS_PER_REQUEST = [] := by
        rcases List.eq_nil_or_concat (blocks.drop MAX_BLOCKS_PER_REQUEST) with hn | ⟨l, a, hla⟩
        · exact hn
        · rw [hla] at hr; simp at hr
      have htake : blocks.take MAX_BLOCKS_PER_REQUEST = blocks := by
        have := List.take_append_drop MAX_BLOCKS_PER_REQUEST blocks
        rw [hdrop, List.append_nil] at this
        exact this
      simp [htake, NotionCall.children]
  · intro h250
    have hlen_drop : (blocks.drop MAX_BLOCKS_PER_REQUEST).length = 150 := by
      simp [List.length_drop, MAX_BLOCKS_PER_REQUEST, h250]
    have hne1 : blocks.drop MAX_BLOCKS_PER_REQUEST ≠ [] := by
      intro hn; rw [hn] at hlen_drop; simp at hlen_drop
    have hb1 : appendBatches (blocks.drop MAX_BLOCKS_PER_REQUEST)
        = (blocks.drop MAX_BLOCKS_PER_REQUEST).take 100 ::
          appendBatches ((blocks.drop MAX_BLOCKS_PER_REQUEST).drop 100) :=
      appendBatches_ne_nil_eq _ hne1
    have hlen_drop2 : ((blocks.drop MAX_BLOCKS_PER_REQUEST).drop 100).length = 50 := by
      simp [List.length_drop, MAX_BLOCKS_PER_REQUEST, h250]
    have hne2 : (blocks.drop MAX_BLOCKS_PER_REQUEST).drop 100 ≠ [] := by
      intro hn; rw [hn] at hlen_drop2; simp at hlen_drop2
    have hb2 : appendBatches ((blocks.drop MAX_BLOCKS_PER_REQUEST).drop 100)
        = ((blocks.drop MAX_BLOCKS_PER_REQUEST).drop 100).take 100 ::
          appendBatches (((blocks.drop MAX_BLOCKS_PER_REQUEST).drop 100).drop 100) :=
      appendBatches_ne_nil_eq _ hne2
    have htake2 : ((blocks.drop MAX_BLOCKS_PER_REQUEST).drop 100).take 100
        = (blocks.drop MAX_BLOCKS_PER_REQUEST).drop 100 :=
      List.take_of_length_le (by rw [hlen_drop2]; omega)
    have hdrop3 : ((blocks.drop MAX_BLOCKS_PER_REQUEST).drop 100).drop 100 = [] :=
      List.drop_eq_nil_of_le (by rw [hlen_drop2]; omega)
    have hcalls : createPageCalls blocks
        = [NotionCall.create (blocks.take MAX_BLOCKS_PER_REQUEST),
           NotionCall.append ((blocks.drop MAX_BLOCKS_PER_REQUEST).take 100),
           NotionCall.append ((blocks.drop MAX_BLOCKS_PER_REQUEST).drop 100)] := by
      unfold createPageCalls
      rw [hb1, hb2, htake2, hdrop3]
      simp [hlen_drop, appendBatches]
    refine ⟨by rw [hcalls]; rfl, ?_, ?_⟩
    · rw [hcalls]
      simp only [List.map_cons, List.map_nil, NotionCall.children]
      have l1 : (blocks.take MAX_BLOCKS_PER_REQUEST).length = 100 := by
        simp [List.length_take, MAX_BLOCKS_PER_REQUEST, h250]
      have l2 : ((blocks.drop MAX_BLOCKS_PER_REQUEST).take 100).length = 100 := by
        simp [List.length_take, hlen_drop]
      rw [l1, l2, hlen_drop2]
    · refine ⟨(blocks.drop MAX_BLOCKS_PER_REQUEST).take 100,
        (blocks.drop MAX_BLOCKS_PER_REQUEST).drop 100, hcalls, ?_⟩
      show blocks.take MAX_BLOCKS_PER_REQUEST ++
        ((blocks.drop MAX_BLOCKS_PER_REQUEST).take 100 ++
          (blocks.drop MAX_BLOCKS_PER_REQUEST).drop 100) = blocks
      rw [List.take_append_drop 100]
      exact List.take_append_drop _ _

/-- Witness for C6 at a concrete 250-block input. -/
theorem C6_createPage_batching_witness :
    (createPageCalls (List.range 250)).length = 3
    ∧ (createPageCalls (List.range 250)).map (fun c => c.children.length) = [100, 100, 50]
    ∧ ((createPageCalls (List.range 250)).map NotionCall.children).flatten = List.range 250 := by
  have h := C6_createPage_batching (List.range 250)
  have h250 := h.2.2.2 (by simp)
  exact ⟨h250.1, h250.2.1, h.2.2.1⟩

/-! Facts about the history collection. -/

/-- A sequence of addHistory calls, each with its fresh id and timestamp. -/
def runHistory (s : Store) (ops : List (String × Nat × HistoryInput)) : Store :=
  ops.foldl (fun st o => (addHistory st o.1 o.2.1 o.2.2).1) s

theorem addHistory_history (s : Store) (freshId : String) (now : Nat) (r : HistoryInput) :
    (addHistory s freshId now r).1.history
      = (mkHistoryRecord freshId now r :: s.history).take 100 := by
  show (if (mkHistoryRecord freshId now r :: s.history).length > 100
      then (mkHistoryRecord freshId now r :: s.history).take 100
      else mkHistoryRecord freshId now r :: s.history)
    = (mkHistoryRecord freshId now r :: s.history).take 100
  split
  · rfl
  · next h => exact (List.take_of_length_le (by omega)).symm

theorem take_append_take {α : Type} (a b : List α) (n : Nat) :
    (a ++ b.take n).take n = (a ++ b).take n := by
  rw [List.take_append_eq_append_take, List.take_append_eq_append_take, List.take_take]
  congr 1
  congr 1
  omega

theorem runHistory_history :
    ∀ (ops : List (String × Nat × HistoryInput)) (s : Store), s.history.length ≤ 100 →
      (runHistory s ops).history
        = ((ops.map (fun o => mkHistoryRecord o.1 o.2.1 o.2.2)).reverse ++ s.history).take 100
  | [], s, h => by
    simp only [runHistory, List.foldl_nil, List.map_nil, List.reverse_nil, List.nil_append]
    exact (List.take_of_length_le h).symm
  | o :: os, s, h => by
    show (runHistory (addHistory s o.1 o.2.1 o.2.2).1 os).history = _
    rw [runHistory_history os (addHistory s o.1 o.2.1 o.2.2).1
      (by rw [addHistory_history]; exact le_trans (List.length_take_le _ _) (le_refl _)),
      addHistory_history]
    rw [take_append_take]
    simp only [List.map_cons, List.reverse_cons, List.append_assoc, List.singleton_append]

/-- C5: After any sequence of appendHistory operations the history holds at
most 100 records, ordered newest-first (the reverse of the append order,
truncated to the most recent 100); appending to a full collection of 100
evicts the oldest record; and queryHistory never returns more than 100
entries over any such reachable store. -/
theorem C5_history_cap :
    (∀ ops : List (String × Nat × HistoryInput),
      (runHistory defaultData ops).history
        = ((ops.map (fun o => mkHistoryRecord o.1 o.2.1 o.2.2)).reverse).take 100
      ∧ (runHistory defaultData ops).history.length ≤ 100)
  ∧ (∀ (s : Store) (freshId : String) (now : Nat) (r : HistoryInput),
      s.history.length = 100 →
      (addHistory s freshId now r).1.history
        = mkHistoryRecord freshId now r :: s.history.dropLast
      ∧ (addHistory s freshId now r).1.history.length = 100)
  ∧ (∀ (ops : List (String × Nat × HistoryInput)) (limit : Nat) (search : List Char),
      (getHistory (runHistory defaultData ops) limit search).length ≤ 100) := by
  have hrun : ∀ ops : List (String × Nat × HistoryInput),
      (runHistory defaultData ops).history
        = ((ops.map (fun o => mkHistoryRecord o.1 o.2.1 o.2.2)).reverse).take 100 := by
    intro ops
    have := runHistory_history ops defaultData (by simp [defaultData])
    simpa [defaultData] using this
  refine ⟨fun ops => ⟨hrun ops, ?_⟩, ?_, ?_⟩
  · rw [hrun ops]
    exact List.length_take_le _ _
  · intro s freshId now r h100
    rw [addHistory_history]
    constructor
    · have : (mkHistoryRecord freshId now r :: s.history).take 100
          = mkHistoryRecord freshId now r :: s.history.take 99 := rfl
      rw [this, List.dropLast_eq_take, h100]
    · simp [List.length_take, h100]
  · intro ops limit search
    have hlen : (runHistory defaultData ops).history.length ≤ 100 := by
      rw [hrun ops]; exact List.length_take_le _ _
    unfold getHistory
    by_cases hs : search ≠ []
    · rw [if_pos hs]
      calc ((((runHistory defaultData ops).history.filter
              (titleMatches search))).take limit).length
          ≤ ((runHistory defaultData ops).history.filter (titleMatches search)).length :=
            List.length_take_le' _ _
        _ ≤ (runHistory defaultData ops).history.length := List.length_filter_le _ _
        _ ≤ 100 := hlen
    · rw [if_neg hs]
      calc (((runHistory defaultData ops).history).take limit).length
          ≤ (runHistory defaultData ops).history.length := List.length_take_le' _ _
        _ ≤ 100 := hlen

/-- Witness for C5 at a full collection of 100 records and a concrete run. -/
theorem C5_history_cap_witness :
    (addHistory { defaultData with
        history := List.replicate 100 (mkHistoryRecord "r" 0
          { title := ['t'], pageConfigId := none, notionPageId := none
            notionUrl := none, status := "success", error := none }) } "s" 1
      { title := ['u'], pageConfigId := none, notionPageId := none
        notionUrl := none, status := "failed", error := some "e" }).1.history.length = 100
    ∧ (runHistory defaultData []).history.length ≤ 100 := by
  constructor
  · exact ((C5_history_cap.2.1 _ "s" 1 _ (by simp)).2)
  · exact (C5_history_cap.1 []).2

/-- C7: queryHistory filters by case-insensitive substring match of the
search text against the title first, and only then takes at most limit
entries of the filtered result, so the limit bounds the result size, not the
number of records scanned. -/
theorem C7_queryHistory_filter_before_limit :
    ∀ (s : Store) (limit : Nat) (search : List Char), search ≠ [] →
      getHistory s limit search = (s.history.filter (titleMatches search)).take limit
      ∧ (getHistory s limit search).length
          = min (s.history.countP (titleMatches search)) limit
      ∧ ∀ rec ∈ getHistory s limit search, titleMatches search rec = true := by
  intro s limit search hs
  have hdef : getHistory s limit search
      = (s.history.filter (titleMatches search)).take limit := by
    unfold getHistory
    rw [if_pos hs]
  refine ⟨hdef, ?_, ?_⟩
  · rw [hdef, List.length_take, List.countP_eq_length_filter, Nat.min_comm]
  · intro rec hrec
    rw [hdef] at hrec
    exact (List.mem_filter.mp (List.mem_of_mem_take hrec)).2

/-- Witness for C7 at a concrete store, limit and search text. -/
theorem C7_queryHistory_filter_before_limit_witness :
    getHistory { defaultData with
        history := [mkHistoryRecord "a" 0
          { title := "Meeting Notes".toList, pageConfigId := none, notionPageId := none
            notionUrl := none, status := "success", error := none },
         mkHistoryRecord "b" 1
          { title := "other".toList, pageConfigId := none, notionPageId := none
            notionUrl := none, status := "success", error := none },
         mkHistoryRecord "c" 2
          { title := "more NOTES".toList, pageConfigId := none, notionPageId := none
            notionUrl := none, status := "success", error := none }] } 2 "notes".toList
      = [mkHistoryRecord "a" 0
          { title := "Meeting Notes".toList, pageConfigId := none, notionPageId := none
            notionUrl := none, status := "success", error := none },
         mkHistoryRecord "c" 2
          { title := "more NOTES".toList, pageConfigId := none, notionPageId := none
            notionUrl := none, status := "success", error := none }] := by
  rw [(C7_queryHistory_filter_before_limit _ 2 _ (by decide)).1]
  rfl

/-! Facts about the secret cipher. -/

theorem dropWhile_eq_nil_of_all {α : Type} {p : α → Bool} {l : List α}
    (h : ∀ c ∈ l, p c = true) : l.dropWhile p = [] := by
  induction l with
  | nil => rfl
  | cons y ys ih =>
    simp only [List.dropWhile_cons, h y (by simp)]
    exact ih (fun c hc => h c (by simp [hc]))

theorem b64encode_all_ne_colon (bs : List Nat) :
    ∀ c ∈ b64encode bs, (c != ':') = true := by
  intro c hc
  have := b64encode_ne_colon bs c hc
  simpa [bne_iff_ne] using this

theorem all_ne_colon_of_not_mem {a : List Char} (ha : ':' ∉ a) :
    ∀ c ∈ a, (c != ':') = true := by
  intro c hc
  have : c ≠ ':' := fun h => ha (h ▸ hc)
  simpa [bne_iff_ne] using this

theorem tokenEnc_no_colon {s : List Char} (h : ∀ c ∈ s, (c != ':') = true) :
    tokenEnc s = none := by
  unfold tokenEnc
  rw [dropWhile_eq_nil_of_all h]

theorem tokenEnc_append (a b : List Char) (ha : ∀ c ∈ a, (c != ':') = true) :
    tokenEnc (a ++ ':' :: b) = some (b.takeWhile (fun c => c != ':')) := by
  unfold tokenEnc
  rw [dropWhile_append_sep ha (by decide)]

theorem tokenIv_append (a b : List Char) (ha : ∀ c ∈ a, (c != ':') = true) :
    tokenIv (a ++ ':' :: b) = a := by
  unfold tokenIv
  exact takeWhile_append_sep ha (by decide)

theorem decrypt_some_of_enc_none (prim : CipherPrim) {s : List Char} (hne : s ≠ [])
    (henc : tokenEnc s = none) : decrypt prim (some s) = Except.error () := by
  simp only [decrypt]
  rw [if_neg hne, henc]

theorem decrypt_some_of_enc_some (prim : CipherPrim) {s encPart : List Char} (hne : s ≠ [])
    (henc : tokenEnc s = some encPart) :
    decrypt prim (some s)
      = if tokenIv s = [] ∨ encPart = [] then Except.error ()
        else Except.ok (some (prim.dec (b64decode (tokenIv s)) (b64decode encPart))) := by
  simp only [decrypt]
  rw [if_neg hne, henc]

/-- Shared helper: a non-empty token without the ':' delimiter makes decrypt
fail with the format error. -/
theorem decrypt_no_colon (prim : CipherPrim) (s : List Char) (hne : s ≠ [])
    (hcol : ':' ∉ s) : decrypt prim (some s) = Except.error () :=
  decrypt_some_of_enc_none prim hne (tokenEnc_no_colon (all_ne_colon_of_not_mem hcol))

/-- C3: decrypt inverts encrypt for every non-empty plaintext (given genuine
byte buffers for the iv and for the ciphertext produced by the AES
primitive); encrypt maps null and the empty string to null, and decrypt maps
null to null. -/
theorem C3_encrypt_decrypt_roundtrip :
    ∀ (prim : CipherPrim) (iv : List Nat) (x : List Char),
      iv ≠ [] → (∀ b ∈ iv, b < 256) →
      prim.enc iv x ≠ [] → (∀ b ∈ prim.enc iv x, b < 256) →
      x ≠ [] →
      decrypt prim (encrypt prim iv (some x)) = Except.ok (some x)
      ∧ encrypt prim iv none = none
      ∧ encrypt prim iv (some []) = none
      ∧ decrypt prim none = Except.ok none := by
  intro prim iv x hiv hivb hct hctb hx
  refine ⟨?_, rfl, by simp [encrypt], rfl⟩
  have henc_eq : encrypt prim iv (some x)
      = some (b64encode iv ++ ':' :: b64encode (prim.enc iv x)) := by
    simp only [encrypt]
    rw [if_neg hx]
  rw [henc_eq]
  rw [decrypt_some_of_enc_some prim (by simp)
    (tokenEnc_append _ _ (b64encode_all_ne_colon iv))]
  rw [takeWhile_eq_self (b64encode_all_ne_colon (prim.enc iv x))]
  rw [tokenIv_append _ _ (b64encode_all_ne_colon iv)]
  rw [if_neg (by
    push_neg
    exact ⟨b64encode_ne_nil iv hiv, b64encode_ne_nil _ hct⟩)]
  rw [b64decode_encode iv hivb, b64decode_encode _ hctb, prim.dec_enc]

/-- Witness for C3 with the concrete cipher, a 16-byte iv and plaintext. -/
theorem C3_encrypt_decrypt_roundtrip_witness :
    decrypt demoCipher (encrypt demoCipher (List.replicate 16 7) (some "secret".toList))
      = Except.ok (some "secret".toList)
    ∧ encrypt demoCipher (List.replicate 16 7) none = none
    ∧ decrypt demoCipher none = Except.ok none := by
  have h := C3_encrypt_decrypt_roundtrip demoCipher (List.replicate 16 7) "secret".toList
    (by decide) (by decide) (by decide) (by decide) (by decide)
  exact ⟨h.1, h.2.1, h.2.2.2⟩

/-- C8: decrypt fails with the format error on every non-empty token that has
no ':' delimiter, or an empty part before the first delimiter, or an empty
part between the first delimiter and the next delimiter or end. -/
theorem C8_decrypt_malformed :
    ∀ (prim : CipherPrim) (s : List Char), s ≠ [] →
      ((':' ∉ s)
        ∨ (∃ b, s = ':' :: b)
        ∨ (∃ a, ':' ∉ a ∧ (s = a ++ [':'] ∨ ∃ b, s = a ++ ':' :: ':' :: b))) →
      decrypt prim (some s) = Except.error () := by
  intro prim s hne hmal
  rcases hmal with hcol | ⟨b, rfl⟩ | ⟨a, hcola, hshape⟩
  · exact decrypt_no_colon prim s hne hcol
  · rw [decrypt_some_of_enc_some prim hne
      (tokenEnc_append [] b (by simp))]
    rw [if_pos (Or.inl (by simp [tokenIv, List.takeWhile_cons]))]
  · rcases hshape with rfl | ⟨b, rfl⟩
    · rw [show a ++ [':'] = a ++ ':' :: [] from rfl] at hne ⊢
      rw [decrypt_some_of_enc_some prim hne
        (tokenEnc_append a [] (all_ne_colon_of_not_mem hcola))]
      rw [if_pos (Or.inr List.takeWhile_nil)]
    · rw [decrypt_some_of_enc_some prim hne
        (tokenEnc_append a (':' :: b) (all_ne_colon_of_not_mem hcola))]
      rw [if_pos (Or.inr (by simp [List.takeWhile_cons]))]

/-- Witness for C8 on a concrete delimiter-free token. -/
theorem C8_decrypt_malformed_witness :
    decrypt demoCipher (some "deadbeef".toList) = Except.error () :=
  C8_decrypt_malformed demoCipher "deadbeef".toList (by decide) (Or.inl (by decide))

/-- C10: hasApiKey is true exactly when a ciphertext is stored (for the
well-formed states the store produces, where the field is null or a
non-empty token), and it does not decrypt: on a corrupt stored ciphertext it
still reports true while getApiKey fails, for every cipher primitive. -/
theorem C10_hasApiKey_no_decrypt :
    ∀ s : Store,
      ((s.config.apiKey = none ∨ ∃ c, s.config.apiKey = some c ∧ c ≠ []) →
        (hasApiKey s = true ↔ s.config.apiKey ≠ none))
      ∧ (∀ (prim : CipherPrim) (c : List Char), s.config.apiKey = some c → c ≠ [] →
          ':' ∉ c → hasApiKey s = true ∧ getApiKey prim s = Except.error ()) := by
  intro s
  constructor
  · rintro (hn | ⟨c, hc, hcne⟩)
    · unfold hasApiKey
      rw [hn]
      simp
    · unfold hasApiKey
      rw [hc]
      simp [bne_iff_ne, hcne, hc]
  · intro prim c hc hcne hcol
    constructor
    · unfold hasApiKey
      rw [hc]
      simp [bne_iff_ne, hcne]
    · unfold getApiKey
      rw [hc]
      simp only [if_neg hcne]
      exact decrypt_no_colon prim c hcne hcol

/-- Witness for C10 on a store holding a corrupt (delimiter-free) ciphertext. -/
theorem C10_hasApiKey_no_decrypt_witness :
    hasApiKey { defaultData with
        config := { apiKey := some "deadbeef".toList, defaultPageId := none } } = true
    ∧ getApiKey demoCipher { defaultData with
        config := { apiKey := some "deadbeef".toList, defaultPageId := none } }
      = Except.error () :=
  (C10_hasApiKey_no_decrypt _).2 demoCipher "deadbeef".toList rfl (by decide) (by decide)


/-! Facts about the page collection operations. -/

theorem popFirst_eq_some {α : Type} {pred : α → Bool} :
    ∀ {l : List α} {x : α} {ys : List α}, popFirst pred l = some (x, ys) →
      ∃ l1 l2, l = l1 ++ x :: l2 ∧ ys = l1 ++ l2 ∧ pred x = true ∧ ∀ a ∈ l1, pred a = false := by
  intro l
  induction l with
  | nil => intro x ys h; exact absurd h (by simp [popFirst])
  | cons z zs ih =>
    intro x ys h
    simp only [popFirst] at h
    by_cases hp : pred z
    · rw [if_pos hp] at h
      obtain ⟨rfl, rfl⟩ : z = x ∧ zs = ys := by
        constructor <;> [exact congrArg Prod.fst (Option.some.inj h);
          exact congrArg Prod.snd (Option.some.inj h)]
      exact ⟨[], zs, rfl, rfl, hp, by simp⟩
    · rw [if_neg hp] at h
      rcases hrec : popFirst pred zs with _ | ⟨y, ys'⟩ <;> rw [hrec] at h
      · exact absurd h (by simp)
      · obtain ⟨rfl, rfl⟩ : y = x ∧ z :: ys' = ys := by
          constructor <;> [exact congrArg Prod.fst (Option.some.inj h);
            exact congrArg Prod.snd (Option.some.inj h)]
        obtain ⟨l1, l2, rfl, rfl, hx, hl1⟩ := ih hrec
        refine ⟨z :: l1, l2, rfl, rfl, hx, ?_⟩
        intro a ha
        rcases List.mem_cons.mp ha with rfl | ha'
        · simpa using hp
        · exact hl1 a ha'

theorem popFirst_append {α : Type} {pred : α → Bool} :
    ∀ (l1 : List α) (x : α) (l2 : List α), (∀ a ∈ l1, pred a = false) → pred x = true →
      popFirst pred (l1 ++ x :: l2) = some (x, l1 ++ l2)
  | [], x, l2, _, hx => by simp [popFirst, hx]
  | z :: zs, x, l2, h1, hx => by
    have hz : pred z = false := h1 z (by simp)
    have ih := popFirst_append zs x l2 (fun a ha => h1 a (by simp [ha])) hx
    simp [popFirst, hz, ih]

theorem updateFirst_eq_some {α : Type} {pred : α → Bool} {f : α → α} :
    ∀ {l : List α} {ys : List α} {y : α}, updateFirst pred f l = some (ys, y) →
      ∃ l1 x l2, l = l1 ++ x :: l2 ∧ ys = l1 ++ f x :: l2 ∧ y = f x ∧ pred x = true
        ∧ ∀ a ∈ l1, pred a = false := by
  intro l
  induction l with
  | nil => intro ys y h; exact absurd h (by simp [updateFirst])
  | cons z zs ih =>
    intro ys y h
    simp only [updateFirst] at h
    by_cases hp : pred z
    · rw [if_pos hp] at h
      obtain ⟨rfl, rfl⟩ : f z :: zs = ys ∧ f z = y := by
        constructor <;> [exact congrArg Prod.fst (Option.some.inj h);
          exact congrArg Prod.snd (Option.some.inj h)]
      exact ⟨[], z, zs, rfl, rfl, rfl, hp, by simp⟩
    · rw [if_neg hp] at h
      rcases hrec : updateFirst pred f zs with _ | ⟨ys', y'⟩ <;> rw [hrec] at h
      · exact absurd h (by simp)
      · obtain ⟨rfl, rfl⟩ : z :: ys' = ys ∧ y' = y := by
          constructor <;> [exact congrArg Prod.fst (Option.some.inj h);
            exact congrArg Prod.snd (Option.some.inj h)]
        obtain ⟨l1, x, l2, rfl, rfl, rfl, hx, hl1⟩ := ih hrec
        refine ⟨z :: l1, x, l2, rfl, rfl, rfl, hx, ?_⟩
        intro a ha
        rcases List.mem_cons.mp ha with rfl | ha'
        · simpa using hp
        · exact hl1 a ha'

/-- C4: in a store whose unique default page carries the requested id, with
at least two other pages present, deletePage removes that page, promotes
exactly the first remaining page in stored order and points
config.defaultPageId at it; and deleting the last remaining page clears the
default pointer to null. -/
theorem C4_deletePage_default_reassignment :
    ∀ (s : Store) (id : String) (l1 l2 : List Page) (p : Page),
      s.pages = l1 ++ p :: l2 → p.id = id → (∀ q ∈ l1, q.id ≠ id) →
      p.isDefault = true → (∀ q ∈ l1, q.isDefault = false) → (∀ q ∈ l2, q.isDefault = false) →
      ((l1 ++ l2).length ≥ 2 →
        ∃ q rest, l1 ++ l2 = q :: rest
          ∧ (deletePage s id).2 = true
          ∧ (deletePage s id).1.pages = { q with isDefault := true } :: rest
          ∧ (deletePage s id).1.pages.countP (fun r => r.isDefault) = 1
          ∧ (deletePage s id).1.config.defaultPageId = some q.id)
      ∧ (l1 = [] → l2 = [] →
          (deletePage s id).2 = true
          ∧ (deletePage s id).1.pages = []
          ∧ (deletePage s id).1.config.defaultPageId = none) := by
  intro s id l1 l2 p hpages hpid hl1id hpdef hl1def hl2def
  have hpop : popFirst (fun q => q.id == id) s.pages = some (p, l1 ++ l2) := by
    rw [hpages]
    exact popFirst_append l1 p l2
      (fun a ha => by simpa [beq_iff_eq] using hl1id a ha)
      (by simpa [beq_iff_eq] using hpid)
  constructor
  · intro hlen
    rcases hrest : l1 ++ l2 with _ | ⟨q, rest⟩
    · rw [hrest] at hlen; simp at hlen
    · refine ⟨q, rest, rfl, ?_⟩
      have hdel : deletePage s id
          = ({ s with pages := { q with isDefault := true } :: rest
                      config := { s.config with defaultPageId := some q.id } }, true) := by
        simp only [deletePage, hpop, hrest]
        rw [if_pos hpdef]
      rw [hdel]
      refine ⟨rfl, rfl, ?_, rfl⟩
      have hrest0 : rest.countP (fun r => r.isDefault) = 0 := by
        rw [List.countP_eq_zero]
        intro a ha
        have : a ∈ l1 ++ l2 := by rw [hrest]; exact List.mem_cons_of_mem q ha
        rcases List.mem_append.mp this with h1 | h2
        · simp [hl1def a h1]
        · simp [hl2def a h2]
      simp [List.countP_cons, hrest0]
  · rintro rfl rfl
    have hdel : deletePage s id
        = ({ s with pages := []
                    config := { s.config with defaultPageId := none } }, true) := by
      simp only [deletePage, hpop, List.nil_append]
    rw [hdel]
    exact ⟨rfl, rfl, rfl⟩

/-- Witness for C4 on a concrete three-page store with the default first. -/
theorem C4_deletePage_default_reassignment_witness :
    (deletePage { defaultData with
        pages := [{ id := "a", name := "A", pageId := "pa", url := none, isDefault := true
                    createdAt := 0, updatedAt := none },
                  { id := "b", name := "B", pageId := "pb", url := none, isDefault := false
                    createdAt := 1, updatedAt := none },
                  { id := "c", name := "C", pageId := "pc", url := none, isDefault := false
                    createdAt := 2, updatedAt := none }]
        config := { apiKey := none, defaultPageId := some "a" } } "a").1.config.defaultPageId
      = some "b" := by
  obtain ⟨q, rest, hqr, -, -, -, hptr⟩ :=
    (C4_deletePage_default_reassignment { defaultData with
        pages := [{ id := "a", name := "A", pageId := "pa", url := none, isDefault := true
                    createdAt := 0, updatedAt := none },
                  { id := "b", name := "B", pageId := "pb", url := none, isDefault := false
                    createdAt := 1, updatedAt := none },
                  { id := "c", name := "C", pageId := "pc", url := none, isDefault := false
                    createdAt := 2, updatedAt := none }]
        config := { apiKey := none, defaultPageId := some "a" } } "a" []
      [{ id := "b", name := "B", pageId := "pb", url := none, isDefault := false
         createdAt := 1, updatedAt := none },
       { id := "c", name := "C", pageId := "pc", url := none, isDefault := false
         createdAt := 2, updatedAt := none }]
      { id := "a", name := "A", pageId := "pa", url := none, isDefault := true
        createdAt := 0, updatedAt := none }
      rfl rfl (by simp) rfl (by simp) (by
        intro qq hq
        rcases List.mem_cons.mp hq with rfl | hq'
        · rfl
        · rcases List.mem_cons.mp hq' with rfl | hq''
          · rfl
          · exact absurd hq'' (List.not_mem_nil qq))).1 (by simp)
  have hq : q = { id := "b", name := "B", pageId := "pb", url := none, isDefault := false,
                  createdAt := 1, updatedAt := none } := by
    have := congrArg (fun l => l.headD q) hqr
    simpa using this.symm
  rw [hptr, hq]

/-! Reachable page collections: any sequence of addPage, updatePage and
deletePage operations starting from the initial empty document. The fresh
nanoid drawn by addPage is assumed not to collide with a stored id. -/

inductive PageOp where
  | add (freshId : String) (now : Nat) (input : PageInput)
  | update (id : String) (u : PageUpdates) (now : Nat)
  | del (id : String)

/-- The store produced by one operation (the payload result is dropped). -/
def applyPageOp (s : Store) : PageOp → Store
  | PageOp.add freshId now input => (addPage s freshId now input).1
  | PageOp.update id u now => (updatePage s id u now).1
  | PageOp.del id => (deletePage s id).1

/-- The freshness guarantee of the generated nanoid. -/
def FreshForStore (s : Store) : PageOp → Prop
  | PageOp.add freshId _ _ => freshId ∉ s.pages.map Page.id
  | _ => True

/-- Stores reachable from the initial document by page operations. -/
inductive ReachableStore : Store → Prop
  | init : ReachableStore defaultData
  | step {s : Store} {op : PageOp} : ReachableStore s → FreshForStore s op →
      ReachableStore (applyPageOp s op)

/-- The central well-formedness of the page collection: at most one default
page, and pairwise distinct ids. -/
def PagesWF (pages : List Page) : Prop :=
  pages.countP (fun p => p.isDefault) ≤ 1 ∧ (pages.map Page.id).Nodup

theorem addPage_WF (s : Store) (freshId : String) (now : Nat) (input : PageInput)
    (h : PagesWF s.pages) (hfresh : freshId ∉ s.pages.map Page.id) :
    PagesWF ((addPage s freshId now input).1.pages) := by
  unfold addPage
  by_cases hcond : ((mkNewPage freshId now input).isDefault || s.pages.isEmpty) = true
  · rw [if_pos hcond]
    constructor
    · show (s.pages.map (fun p : Page => { p with isDefault := false })
          ++ [{ mkNewPage freshId now input with isDefault := true }]).countP
          (fun p : Page => p.isDefault) ≤ 1
      rw [List.countP_append]
      have h0 : (s.pages.map (fun p : Page => { p with isDefault := false })).countP
          (fun p : Page => p.isDefault) = 0 := by
        rw [List.countP_eq_zero]
        intro a ha
        obtain ⟨p, -, rfl⟩ := List.mem_map.mp ha
        simp
      rw [h0]
      simp
    · show ((s.pages.map (fun p : Page => { p with isDefault := false })
          ++ [{ mkNewPage freshId now input with isDefault := true }]).map Page.id).Nodup
      rw [List.map_append, List.map_map]
      have hcomp : (Page.id ∘ fun p : Page => { p with isDefault := false }) = Page.id :=
        funext (fun p => rfl)
      rw [hcomp]
      rw [show (([{ mkNewPage freshId now input with isDefault := true }] : List Page).map
          Page.id) = [freshId] from rfl]
      rw [List.nodup_append]
      exact ⟨h.2, List.nodup_singleton freshId,
        by simpa [List.disjoint_singleton] using hfresh⟩
  · rw [if_neg hcond]
    have hnd : (mkNewPage freshId now input).isDefault = false := by
      cases hb : (mkNewPage freshId now input).isDefault with
      | false => rfl
      | true => exact absurd (by rw [hb]; simp) hcond
    constructor
    · show (s.pages ++ [mkNewPage freshId now input]).countP (fun p => p.isDefault) ≤ 1
      rw [List.countP_append]
      have h0 : ([mkNewPage freshId now input].countP (fun p => p.isDefault)) = 0 := by
        simp [List.countP_cons, hnd]
      rw [h0]
      simpa using h.1
    · show ((s.pages ++ [mkNewPage freshId now input]).map Page.id).Nodup
      rw [List.map_append]
      rw [show (([mkNewPage freshId now input] : List Page).map Page.id) = [freshId] from rfl]
      rw [List.nodup_append]
      exact ⟨h.2, List.nodup_singleton freshId,
        by simpa [List.disjoint_singleton] using hfresh⟩

theorem updatePage_WF (s : Store) (id : String) (u : PageUpdates) (now : Nat)
    (h : PagesWF s.pages) : PagesWF ((updatePage s id u now).1.pages) := by
  rcases hupd : updateFirst (fun p => p.id == id) (applyUpdates u now) s.pages
    with _ | ⟨pages1, page⟩
  · simp only [updatePage, hupd]
    exact h
  · obtain ⟨l1, x, l2, hl, hys, hy, hx, hl1⟩ := updateFirst_eq_some hupd
    have hxid : x.id = id := by simpa [beq_iff_eq] using hx
    have hfid : (applyUpdates u now x).id = x.id := rfl
    have hids1 : pages1.map Page.id = s.pages.map Page.id := by
      rw [hys, hl, List.map_append, List.map_append, List.map_cons, List.map_cons, hfid]
    have hl1id : ∀ p ∈ l1, p.id ≠ id := by
      intro p hp
      have := hl1 p hp
      simpa [beq_iff_eq] using this
    have hl2id : ∀ p ∈ l2, p.id ≠ id := by
      have hnodup := h.2
      rw [hl, List.map_append, List.map_cons] at hnodup
      rw [List.nodup_append] at hnodup
      have hxnot : x.id ∉ l2.map Page.id := (List.nodup_cons.mp hnodup.2.1).1
      intro p hp hpid
      exact hxnot (by rw [← hxid] at hpid; exact hpid ▸ List.mem_map_of_mem Page.id hp)
    by_cases hdef : u.isDefault = some true
    · simp only [updatePage, hupd, if_pos hdef]
      constructor
      · show (pages1.map (fun p : Page =>
            if p.id == id then p else { p with isDefault := false })).countP
            (fun p : Page => p.isDefault) ≤ 1
        rw [hys, List.map_append, List.map_cons, List.countP_append, List.countP_cons]
        have h1 : (l1.map (fun p : Page =>
            if p.id == id then p else { p with isDefault := false })).countP
            (fun p : Page => p.isDefault) = 0 := by
          rw [List.countP_eq_zero]
          intro a ha
          obtain ⟨p, hp, rfl⟩ := List.mem_map.mp ha
          have : (p.id == id) = false := by simpa [beq_iff_eq] using hl1id p hp
          simp [this]
        have h2 : (l2.map (fun p : Page =>
            if p.id == id then p else { p with isDefault := false })).countP
            (fun p : Page => p.isDefault) = 0 := by
          rw [List.countP_eq_zero]
          intro a ha
          obtain ⟨p, hp, rfl⟩ := List.mem_map.mp ha
          have : (p.id == id) = false := by simpa [beq_iff_eq] using hl2id p hp
          simp [this]
        have h3 : ((applyUpdates u now x).id == id) = true := by
          rw [hfid]
          simpa [beq_iff_eq] using hxid
        have h4 : (if (applyUpdates u now x).id == id then applyUpdates u now x
            else { applyUpdates u now x with isDefault := false }) = applyUpdates u now x := by
          rw [h3]
          rfl
        rw [h1, h2, h4]
        have h5 : (applyUpdates u now x).isDefault = true := by
          show (u.isDefault.getD x.isDefault) = true
          rw [hdef]
          rfl
        simp [h5]
      · show ((pages1.map (fun p : Page =>
            if p.id == id then p else { p with isDefault := false })).map Page.id).Nodup
        rw [List.map_map]
        have : (Page.id ∘ fun p : Page =>
            if p.id == id then p else { p with isDefault := false }) = Page.id := by
          funext p
          show (if p.id == id then p else { p with isDefault := false } : Page).id = p.id
          by_cases hp : (p.id == id) = true
          · rw [if_pos hp]
          · rw [if_neg (by simpa using hp)]
        rw [this, hids1]
        exact h.2
    · simp only [updatePage, hupd, if_neg hdef]
      constructor
      · show pages1.countP (fun p : Page => p.isDefault) ≤ 1
        have hle : pages1.countP (fun p : Page => p.isDefault)
            ≤ s.pages.countP (fun p : Page => p.isDefault) := by
          rw [hys, hl, List.countP_append, List.countP_append, List.countP_cons,
            List.countP_cons]
          have : (if (applyUpdates u now x).isDefault = true then 1 else 0)
              ≤ (if x.isDefault = true then 1 else 0) := by
            show (if (u.isDefault.getD x.isDefault) = true then 1 else 0)
              ≤ if x.isDefault = true then 1 else 0
            rcases hui : u.isDefault with _ | b
            · simp
            · have hb : b = false := by
                cases b
                · rfl
                · exact absurd (by rw [hui]) hdef
              subst hb
              simp
          omega
        exact le_trans hle h.1
      · show (pages1.map Page.id).Nodup
        rw [hids1]
        exact h.2

theorem deletePage_WF (s : Store) (id : String) (h : PagesWF s.pages) :
    PagesWF ((deletePage s id).1.pages) := by
  rcases hpop : popFirst (fun p => p.id == id) s.pages with _ | ⟨removed, rest⟩
  · simp only [deletePage, hpop]
    exact h
  · obtain ⟨l1, l2, hl, hrest, hx, hl1⟩ := popFirst_eq_some hpop
    have hsub : List.Sublist (rest.map Page.id) (s.pages.map Page.id) := by
      rw [hl, hrest, List.map_append, List.map_append, List.map_cons]
      exact List.Sublist.append_left (List.sublist_cons_self _ _) _
    have hnodup_rest : (rest.map Page.id).Nodup := List.Nodup.sublist hsub h.2
    have hcount_le : rest.countP (fun p : Page => p.isDefault)
        ≤ s.pages.countP (fun p : Page => p.isDefault) := by
      rw [hl, hrest, List.countP_append, List.countP_append, List.countP_cons]
      omega
    rcases hrest2 : rest with _ | ⟨q, qs⟩
    · simp only [deletePage, hpop, hrest2]
      constructor
      · simp
      · simp
    · by_cases hd : removed.isDefault = true
      · simp only [deletePage, hpop, hrest2, if_pos hd]
        constructor
        · show (({ q with isDefault := true } : Page) :: qs).countP
            (fun p : Page => p.isDefault) ≤ 1
          have hzero : rest.countP (fun p : Page => p.isDefault) = 0 := by
            have hcount := h.1
            rw [hl, List.countP_append, List.countP_cons] at hcount
            rw [hrest, List.countP_append]
            simp [hd] at hcount
            omega
          rw [hrest2, List.countP_cons] at hzero
          rw [List.countP_cons,
            show ({ q with isDefault := true } : Page).isDefault = true from rfl]
          simp only [if_pos (rfl : true = true), if_true]
          omega
        · show ((({ q with isDefault := true } : Page) :: qs).map Page.id).Nodup
          rw [List.map_cons]
          rw [hrest2, List.map_cons] at hnodup_rest
          exact hnodup_rest
      · simp only [deletePage, hpop, hrest2, if_neg hd]
        constructor
        · show (q :: qs).countP (fun p : Page => p.isDefault) ≤ 1
          rw [← hrest2]
          exact le_trans hcount_le h.1
        · show ((q :: qs).map Page.id).Nodup
          rw [← hrest2]
          exact hnodup_rest

theorem reachable_WF : ∀ {s : Store}, ReachableStore s → PagesWF s.pages := by
  intro s h
  induction h with
  | init =>
    constructor
    · simp [defaultData]
    · simp [defaultData]
  | @step s' op hr hf ih =>
    cases op with
    | add freshId now input => exact addPage_WF s' freshId now input ih hf
    | update id u now => exact updatePage_WF s' id u now ih
    | del id => exact deletePage_WF s' id ih

/-- C1 (amended): in every page collection reachable by any sequence of
addPage, updatePage and deletePage operations from the empty store, at most
one page has isDefault = true. The original "exactly one when non-empty"
fails, see the counterexample. -/
theorem C1_at_most_one_default :
    ∀ s : Store, ReachableStore s → s.pages.countP (fun p => p.isDefault) ≤ 1 :=
  fun _ h => (reachable_WF h).1

/-- Witness for C1 at the initial store. -/
theorem C1_at_most_one_default_witness :
    defaultData.pages.countP (fun p => p.isDefault) ≤ 1 :=
  C1_at_most_one_default defaultData ReachableStore.init

/-- Adding one page (which becomes default as the first page) and then
updating it with isDefault set to false: updatePage only runs the demotion
bookkeeping when updates.isDefault is truthy, so the explicit false simply
lands in the merge and no page remains default. -/
def brokenStore : Store :=
  applyPageOp
    (applyPageOp defaultData
      (PageOp.add "p1" 0
        { name := "Notes", pageId := "a1b2c3", url := none, isDefault := none }))
    (PageOp.update "p1"
      { name := none, pageId := none, url := none, isDefault := some false } 1)

/-- Counterexample to C1 as stated: a reachable non-empty page collection in
which no page at all has isDefault = true (so not exactly one). -/
theorem C1_counterexample :
    ReachableStore brokenStore
    ∧ brokenStore.pages.length = 1
    ∧ brokenStore.pages.countP (fun p => p.isDefault) = 0 := by
  refine ⟨?_, by decide, by decide⟩
  exact ReachableStore.step
    (ReachableStore.step ReachableStore.init (by simp [FreshForStore, defaultData]))
    trivial

/-! Facts about the identifier extractor: whitespace trimming (claim C9). -/

theorem jsTrim_eq_rdropWhile (s : List Char) :
    jsTrim s = List.rdropWhile isJsWs (s.dropWhile isJsWs) := rfl

theorem jsTrim_idem (s : List Char) : jsTrim (jsTrim s) = jsTrim s := by
  rw [jsTrim_eq_rdropWhile, jsTrim_eq_rdropWhile]
  have hdrop : (List.rdropWhile isJsWs (s.dropWhile isJsWs)).dropWhile isJsWs
      = List.rdropWhile isJsWs (s.dropWhile isJsWs) := by
    rcases hB : List.rdropWhile isJsWs (s.dropWhile isJsWs) with _ | ⟨c, cs⟩
    · rfl
    · obtain ⟨t, ht⟩ := List.rdropWhile_prefix isJsWs (s.dropWhile isJsWs)
      rw [hB] at ht
      have hhead : (s.dropWhile isJsWs).head? = some c := by
        rw [← ht]
        rfl
      have h2 := List.head?_dropWhile_not isJsWs s
      rw [hhead] at h2
      have h3 : isJsWs c = false := h2
      exact List.dropWhile_cons_of_neg (by simp [h3])
  rw [hdrop, List.rdropWhile_idempotent]

/-- C9: extractPageId gives the same result on an input and on the input with
leading and trailing whitespace removed; surrounding whitespace never changes
the extraction. -/
theorem C9_extractPageId_trim_invariant :
    ∀ s : List Char, extractPageId (jsTrim s) = extractPageId s := by
  intro s
  by_cases hs : s = []
  · subst hs
    rfl
  · by_cases ht : jsTrim s = []
    · have hL : extractPageId (jsTrim s) = none := by rw [ht]; rfl
      have hR : extractPageId s = none := by
        unfold extractPageId
        rw [if_neg hs, ht]
        rfl
      rw [hL, hR]
    · unfold extractPageId
      rw [if_neg hs, if_neg ht, jsTrim_idem]

/-! The input shapes named by the extractor contract (claim C2), written from
the spec's wording, and their correspondence with the embedded regexes. -/

/-- A 32-character hexadecimal run. -/
def Hex32Run (h : List Char) : Prop := h.length = 32 ∧ h.all isHexDigit = true

/-- The dashed 8-4-4-4-12 UUID shape. -/
def UuidShape (t : List Char) : Prop :=
  ∃ g1 g2 g3 g4 g5 : List Char,
    t = g1 ++ '-' :: (g2 ++ '-' :: (g3 ++ '-' :: (g4 ++ '-' :: g5)))
    ∧ g1.length = 8 ∧ g2.length = 4 ∧ g3.length = 4 ∧ g4.length = 4 ∧ g5.length = 12
    ∧ g1.all isHexDigit = true ∧ g2.all isHexDigit = true ∧ g3.all isHexDigit = true
    ∧ g4.all isHexDigit = true ∧ g5.all isHexDigit = true

/-- Optional workspace segment after notion.so/: either absent or one
slash-free non-empty segment closed by a slash. -/
def WsSeg (ws : List Char) : Prop :=
  ws = [] ∨ ∃ seg : List Char, ws = seg ++ ['/'] ∧ seg ≠ [] ∧ '/' ∉ seg

/-- Slug text: any number of non-empty dash-free segments, each closed by a
dash. -/
def SlugSegs (slugs : List Char) : Prop :=
  ∃ segs : List (List Char),
    slugs = (segs.map (fun seg => seg ++ ['-'])).flatten
    ∧ ∀ seg ∈ segs, seg ≠ [] ∧ '-' ∉ seg

/-- The claim's URL rule: the input contains notion.so/ (case-insensitively)
followed by an optional workspace segment and optional slug segments,
terminating in a 32-hex run. -/
def NotionShape (t h : List Char) : Prop :=
  Hex32Run h ∧
  ∃ pre ns ws slugs rest : List Char,
    t = pre ++ (ns ++ (ws ++ (slugs ++ (h ++ rest))))
    ∧ ns.map Char.toLower = notionLit ∧ WsSeg ws ∧ SlugSegs slugs

/-- The claim's trailing-run rule: the input contains a 32-hex run followed
immediately by the end of the string or by '?'. -/
def BareShape (t h : List Char) : Prop :=
  Hex32Run h ∧ ∃ pre rest : List Char,
    t = pre ++ (h ++ rest) ∧ (rest = [] ∨ ∃ r, rest = '?' :: r)

theorem isHex32_iff (t : List Char) : isHex32 t = true ↔ Hex32Run t := by
  unfold isHex32 Hex32Run
  rw [Bool.and_eq_true, beq_iff_eq]

theorem hex32Here_sound {t h : List Char} (heq : hex32Here t = some h) :
    h = t.take 32 ∧ Hex32Run h ∧ t = h ++ t.drop 32 := by
  unfold hex32Here at heq
  by_cases hc : ((t.take 32).length == 32 && (t.take 32).all isHexDigit) = true
  · rw [if_pos hc] at heq
    obtain rfl : t.take 32 = h := Option.some.inj heq
    rw [Bool.and_eq_true, beq_iff_eq] at hc
    exact ⟨rfl, ⟨hc.1, hc.2⟩, (List.take_append_drop 32 t).symm⟩
  · rw [if_neg hc] at heq
    exact absurd heq (by simp)

theorem hex32Here_of {h : List Char} (hh : Hex32Run h) (rest : List Char) :
    hex32Here (h ++ rest) = some h := by
  unfold hex32Here
  rw [List.take_left' hh.1]
  rw [if_pos (by rw [Bool.and_eq_true, beq_iff_eq]; exact ⟨hh.1, hh.2⟩)]

theorem consumeSegDash_sound {t t' : List Char} (heq : consumeSegDash t = some t') :
    ∃ seg : List Char, t = seg ++ '-' :: t' ∧ seg ≠ [] ∧ '-' ∉ seg := by
  unfold consumeSegDash at heq
  rcases hd : t.dropWhile (fun c => c != '-') with _ | ⟨x, r⟩ <;> rw [hd] at heq
  · exact absurd heq (by simp)
  · have heq2 : (if t.takeWhile (fun c => c != '-') = [] then none else some r)
        = some t' := heq
    by_cases hp : t.takeWhile (fun c => c != '-') = []
    · rw [if_pos hp] at heq2
      exact absurd heq2 (by simp)
    · rw [if_neg hp] at heq2
      obtain rfl : r = t' := Option.some.inj heq2
      have hsplit := List.takeWhile_append_dropWhile (p := fun c => c != '-') (l := t)
      have hx : x = '-' := by
        have := List.head?_dropWhile_not (fun c => c != '-') t
        rw [hd] at this
        have h2 : (x != '-') = false := this
        simpa [bne_eq_false_iff_eq] using h2
      refine ⟨t.takeWhile (fun c => c != '-'), ?_, hp, ?_⟩
      · conv_lhs => rw [← hsplit]
        rw [hd, hx]
      · intro hmem
        have h3 := List.mem_takeWhile_imp hmem
        simp at h3

theorem all_bne_of_not_mem {x : Char} {a : List Char} (ha : x ∉ a) :
    ∀ c ∈ a, (c != x) = true := by
  intro c hc
  have : c ≠ x := fun h => ha (h ▸ hc)
  simpa [bne_iff_ne] using this

theorem hexDigit_not_ws {c : Char} (h : isHexDigit c = true) : isJsWs c = false := by
  cases hw : isJsWs c
  · rfl
  · exfalso
    unfold isJsWs at hw
    simp only [Bool.or_eq_true, beq_iff_eq] at hw
    have hcases : c = ' ' ∨ c = '\t' ∨ c = '\n' ∨ c = '\x0d' ∨ c = '\x0b' ∨ c = '\x0c' := by
      tauto
    rcases hcases with rfl | rfl | rfl | rfl | rfl | rfl <;> revert h <;> decide

theorem jsTrim_eq_self {s : List Char} (h : ∀ c ∈ s, isJsWs c = false) : jsTrim s = s := by
  unfold jsTrim
  have h1 : s.dropWhile isJsWs = s := by
    cases s with
    | nil => rfl
    | cons c cs => exact List.dropWhile_cons_of_neg (by simp [h c (by simp)])
  rw [h1]
  have h2 : s.reverse.dropWhile isJsWs = s.reverse := by
    cases hr : s.reverse with
    | nil => rfl
    | cons c cs =>
      have hc : c ∈ s := by rw [← List.mem_reverse, hr]; simp
      exact List.dropWhile_cons_of_neg (by simp [h c hc])
  rw [h2, List.reverse_reverse]

theorem matchGroups_step {n : Nat} (m : Nat) (ms : List Nat) {g : List Char} (r : List Char)
    (hg : g.length = n) (ha : g.all isHexDigit = true) :
    matchGroups (n :: m :: ms) (g ++ '-' :: r) = matchGroups (m :: ms) r := by
  show ((((g ++ '-' :: r).take n).length == n && ((g ++ '-' :: r).take n).all isHexDigit) &&
      match (g ++ '-' :: r).drop n with
      | c :: r => c == '-' && matchGroups (m :: ms) r
      | [] => false) = matchGroups (m :: ms) r
  rw [List.take_left' hg, List.drop_left' hg]
  simp [hg, ha]

theorem matchGroups_decomp {n : Nat} {m : Nat} {ms : List Nat} {s : List Char}
    (h : matchGroups (n :: m :: ms) s = true) :
    ∃ g r, s = g ++ '-' :: r ∧ g.length = n ∧ g.all isHexDigit = true
      ∧ matchGroups (m :: ms) r = true := by
  have h2 : ((((s.take n).length == n && (s.take n).all isHexDigit) &&
      match s.drop n with
      | c :: r => c == '-' && matchGroups (m :: ms) r
      | [] => false) = true) := h
  rcases hd : s.drop n with _ | ⟨c, r⟩ <;> rw [hd] at h2
  · simp at h2
  · simp only [Bool.and_eq_true, beq_iff_eq] at h2
    obtain ⟨⟨hlen, hall⟩, rfl, hrest⟩ := h2
    refine ⟨s.take n, r, ?_, hlen, hall, hrest⟩
    conv_lhs => rw [← List.take_append_drop n s]
    rw [hd]

theorem isDashedUuid_iff {s : List Char} : isDashedUuid s = true ↔ UuidShape s := by
  constructor
  · intro h
    obtain ⟨g1, r1, rfl, hl1, ha1, h1⟩ := matchGroups_decomp h
    obtain ⟨g2, r2, rfl, hl2, ha2, h2⟩ := matchGroups_decomp h1
    obtain ⟨g3, r3, rfl, hl3, ha3, h3⟩ := matchGroups_decomp h2
    obtain ⟨g4, r4, rfl, hl4, ha4, h4⟩ := matchGroups_decomp h3
    have h5 : (r4.length == 12 && r4.all isHexDigit) = true := h4
    simp only [Bool.and_eq_true, beq_iff_eq] at h5
    exact ⟨g1, g2, g3, g4, r4, rfl, hl1, hl2, hl3, hl4, h5.1, ha1, ha2, ha3, ha4, h5.2⟩
  · rintro ⟨g1, g2, g3, g4, g5, rfl, hl1, hl2, hl3, hl4, hl5, ha1, ha2, ha3, ha4, ha5⟩
    unfold isDashedUuid
    rw [matchGroups_step _ _ _ hl1 ha1, matchGroups_step _ _ _ hl2 ha2,
      matchGroups_step _ _ _ hl3 ha3, matchGroups_step _ _ _ hl4 ha4]
    show (g5.length == 12 && g5.all isHexDigit) = true
    simp [hl5, ha5]

theorem UuidShape_length {s : List Char} (h : UuidShape s) : s.length = 36 := by
  obtain ⟨g1, g2, g3, g4, g5, rfl, hl1, hl2, hl3, hl4, hl5, -, -, -, -, -⟩ := h
  simp [List.length_append, hl1, hl2, hl3, hl4, hl5]

theorem UuidShape_chars {s : List Char} (h : UuidShape s) :
    ∀ c ∈ s, isHexDigit c = true ∨ c = '-' := by
  obtain ⟨g1, g2, g3, g4, g5, rfl, -, -, -, -, -, ha1, ha2, ha3, ha4, ha5⟩ := h
  intro c hc
  simp only [List.mem_append, List.mem_cons] at hc
  rw [List.all_eq_true] at ha1 ha2 ha3 ha4 ha5
  rcases hc with h1 | rfl | h2 | rfl | h3 | rfl | h4 | rfl | h5
  · exact Or.inl (ha1 c h1)
  · exact Or.inr rfl
  · exact Or.inl (ha2 c h2)
  · exact Or.inr rfl
  · exact Or.inl (ha3 c h3)
  · exact Or.inr rfl
  · exact Or.inl (ha4 c h4)
  · exact Or.inr rfl
  · exact Or.inl (ha5 c h5)

theorem starDashHex_none (t : List Char) (hc : consumeSegDash t = none) :
    starDashHex t = hex32Here t := by
  rw [starDashHex, hc]

theorem starDashHex_some (t t' : List Char) (hc : consumeSegDash t = some t') :
    starDashHex t = (starDashHex t' <|> hex32Here t) := by
  rw [starDashHex, hc]

theorem SlugSegs_nil : SlugSegs [] := ⟨[], rfl, by simp⟩

theorem SlugSegs_cons {seg slugs : List Char} (hne : seg ≠ []) (hnd : '-' ∉ seg)
    (hs : SlugSegs slugs) : SlugSegs (seg ++ '-' :: slugs) := by
  obtain ⟨segs, rfl, hsegs⟩ := hs
  refine ⟨seg :: segs, by simp, ?_⟩
  intro s hs'
  rcases List.mem_cons.mp hs' with rfl | h'
  · exact ⟨hne, hnd⟩
  · exact hsegs s h'

theorem consumeSegDash_of {seg : List Char} (r : List Char) (hne : seg ≠ [])
    (hnd : '-' ∉ seg) : consumeSegDash (seg ++ '-' :: r) = some r := by
  unfold consumeSegDash
  rw [dropWhile_append_sep (all_bne_of_not_mem hnd) (by decide)]
  show (if (seg ++ '-' :: r).takeWhile (fun c => c != '-') = [] then none else some r)
    = some r
  rw [takeWhile_append_sep (all_bne_of_not_mem hnd) (by decide)]
  rw [if_neg hne]

theorem starDashHex_sound : ∀ (t : List Char), ∀ {h : List Char}, starDashHex t = some h →
    Hex32Run h ∧ ∃ slugs rest, t = slugs ++ (h ++ rest) ∧ SlugSegs slugs
  | t, h, heq => by
    rcases hc : consumeSegDash t with _ | t'
    · rw [starDashHex_none t hc] at heq
      obtain ⟨-, hrun, hsplit⟩ := hex32Here_sound heq
      exact ⟨hrun, [], t.drop 32, by simpa using hsplit, SlugSegs_nil⟩
    · rw [starDashHex_some t t' hc] at heq
      rcases ho : starDashHex t' with _ | h1
      · rw [ho, Option.none_orElse] at heq
        obtain ⟨-, hrun, hsplit⟩ := hex32Here_sound heq
        exact ⟨hrun, [], t.drop 32, by simpa using hsplit, SlugSegs_nil⟩
      · rw [ho, Option.some_orElse] at heq
        obtain rfl : h1 = h := Option.some.inj heq
        obtain ⟨hrun, slugs, rest, hsplit, hslug⟩ := starDashHex_sound t' ho
        obtain ⟨seg, hts, hsegne, hsegnd⟩ := consumeSegDash_sound hc
        refine ⟨hrun, seg ++ '-' :: slugs, rest, ?_, SlugSegs_cons hsegne hsegnd hslug⟩
        rw [hts, hsplit]
        simp
  termination_by t => t.length
  decreasing_by exact consumeSegDash_length hc

theorem starDashHex_complete_aux :
    ∀ (segs : List (List Char)) (h rest : List Char),
      (∀ seg ∈ segs, seg ≠ [] ∧ '-' ∉ seg) → Hex32Run h →
      ∃ h', starDashHex ((segs.map (fun seg => seg ++ ['-'])).flatten ++ (h ++ rest))
        = some h'
  | [], h, rest, _, hh => by
    simp only [List.map_nil, List.flatten_nil, List.nil_append]
    rcases hc : consumeSegDash (h ++ rest) with _ | t'
    · rw [starDashHex_none _ hc, hex32Here_of hh rest]
      exact ⟨h, rfl⟩
    · rw [starDashHex_some _ t' hc]
      rcases ho : starDashHex t' with _ | h1
      · rw [Option.none_orElse, hex32Here_of hh rest]
        exact ⟨h, rfl⟩
      · rw [Option.some_orElse]
        exact ⟨h1, rfl⟩
  | seg :: segs, h, rest, hsegs, hh => by
    obtain ⟨h', ih⟩ := starDashHex_complete_aux segs h rest
      (fun s hs => hsegs s (by simp [hs])) hh
    have hc : consumeSegDash (((seg :: segs).map (fun seg => seg ++ ['-'])).flatten
        ++ (h ++ rest))
        = some ((segs.map (fun seg => seg ++ ['-'])).flatten ++ (h ++ rest)) := by
      have hshape : ((seg :: segs).map (fun seg => seg ++ ['-'])).flatten ++ (h ++ rest)
          = seg ++ '-' :: ((segs.map (fun seg => seg ++ ['-'])).flatten ++ (h ++ rest)) := by
        simp
      rw [hshape]
      exact consumeSegDash_of _ (hsegs seg (by simp)).1 (hsegs seg (by simp)).2
    rw [starDashHex_some _ _ hc, ih, Option.some_orElse]
    exact ⟨h', rfl⟩

theorem starDashHex_complete {slugs h : List Char} (rest : List Char)
    (hslug : SlugSegs slugs) (hh : Hex32Run h) :
    ∃ h', starDashHex (slugs ++ (h ++ rest)) = some h' := by
  obtain ⟨segs, rfl, hsegs⟩ := hslug
  exact starDashHex_complete_aux segs h rest hsegs hh

theorem afterNotionSo_sound {t h : List Char} (heq : afterNotionSo t = some h) :
    Hex32Run h ∧ ∃ ws slugs rest, t = ws ++ (slugs ++ (h ++ rest)) ∧ WsSeg ws
      ∧ SlugSegs slugs := by
  have hstar_case : starDashHex t = some h →
      Hex32Run h ∧ ∃ ws slugs rest, t = ws ++ (slugs ++ (h ++ rest)) ∧ WsSeg ws
        ∧ SlugSegs slugs := by
    intro hs
    obtain ⟨hrun, slugs, rest, hsplit, hslug⟩ := starDashHex_sound t hs
    exact ⟨hrun, [], slugs, rest, by simpa using hsplit, Or.inl rfl, hslug⟩
  unfold afterNotionSo at heq
  rcases hd : t.dropWhile (fun c => c != '/') with _ | ⟨x, r⟩ <;> rw [hd] at heq
  · exact hstar_case heq
  · have heq2 : (if t.takeWhile (fun c => c != '/') = [] then starDashHex t
        else starDashHex r <|> starDashHex t) = some h := heq
    by_cases hp : t.takeWhile (fun c => c != '/') = []
    · rw [if_pos hp] at heq2
      exact hstar_case heq2
    · rw [if_neg hp] at heq2
      rcases ho : starDashHex r with _ | h1
      · rw [ho, Option.none_orElse] at heq2
        exact hstar_case heq2
      · rw [ho, Option.some_orElse] at heq2
        obtain rfl : h1 = h := Option.some.inj heq2
        obtain ⟨hrun, slugs, rest, hrsplit, hslug⟩ := starDashHex_sound r ho
        have hx : x = '/' := by
          have hh2 := List.head?_dropWhile_not (fun c => c != '/') t
          rw [hd] at hh2
          have h3 : (x != '/') = false := hh2
          simpa [bne_eq_false_iff_eq] using h3
        have hnsl : '/' ∉ t.takeWhile (fun c => c != '/') := by
          intro hmem
          have h3 := List.mem_takeWhile_imp hmem
          simp at h3
        refine ⟨hrun, t.takeWhile (fun c => c != '/') ++ ['/'], slugs, rest, ?_,
          Or.inr ⟨t.takeWhile (fun c => c != '/'), rfl, hp, hnsl⟩, hslug⟩
        conv_lhs => rw [← List.takeWhile_append_dropWhile (p := fun c => c != '/') (l := t)]
        rw [hd, hx, hrsplit]
        simp

theorem afterNotionSo_complete {ws slugs h : List Char} (rest : List Char)
    (hws : WsSeg ws) (hslug : SlugSegs slugs) (hh : Hex32Run h) :
    ∃ h', afterNotionSo (ws ++ (slugs ++ (h ++ rest))) = some h' := by
  obtain ⟨h0, hstar⟩ := starDashHex_complete rest hslug hh
  rcases hws with rfl | ⟨seg, rfl, hne, hnsl⟩
  · rw [List.nil_append]
    unfold afterNotionSo
    rcases hd : (slugs ++ (h ++ rest)).dropWhile (fun c => c != '/') with _ | ⟨x, r⟩
    · exact ⟨h0, hstar⟩
    · by_cases hp : (slugs ++ (h ++ rest)).takeWhile (fun c => c != '/') = []
      · refine ⟨h0, ?_⟩
        show (if (slugs ++ (h ++ rest)).takeWhile (fun c => c != '/') = []
            then starDashHex (slugs ++ (h ++ rest))
            else starDashHex r <|> starDashHex (slugs ++ (h ++ rest))) = some h0
        rw [if_pos hp]
        exact hstar
      · rcases ho : starDashHex r with _ | h1
        · refine ⟨h0, ?_⟩
          show (if (slugs ++ (h ++ rest)).takeWhile (fun c => c != '/') = []
              then starDashHex (slugs ++ (h ++ rest))
              else starDashHex r <|> starDashHex (slugs ++ (h ++ rest))) = some h0
          rw [if_neg hp, ho, Option.none_orElse]
          exact hstar
        · refine ⟨h1, ?_⟩
          show (if (slugs ++ (h ++ rest)).takeWhile (fun c => c != '/') = []
              then starDashHex (slugs ++ (h ++ rest))
              else starDashHex r <|> starDashHex (slugs ++ (h ++ rest))) = some h1
          rw [if_neg hp, ho, Option.some_orElse]
  · have hT : (seg ++ ['/']) ++ (slugs ++ (h ++ rest))
        = seg ++ '/' :: (slugs ++ (h ++ rest)) := by simp
    rw [hT]
    unfold afterNotionSo
    rw [dropWhile_append_sep (all_bne_of_not_mem hnsl) (by decide)]
    refine ⟨h0, ?_⟩
    show (if (seg ++ '/' :: (slugs ++ (h ++ rest))).takeWhile (fun c => c != '/') = []
        then starDashHex (seg ++ '/' :: (slugs ++ (h ++ rest)))
        else starDashHex (slugs ++ (h ++ rest))
          <|> starDashHex (seg ++ '/' :: (slugs ++ (h ++ rest)))) = some h0
    rw [takeWhile_append_sep (all_bne_of_not_mem hnsl) (by decide), if_neg hne, hstar,
      Option.some_orElse]

theorem notionLit_lower : notionLit.map Char.toLower = notionLit := by decide

theorem matchLit_sound : ∀ (lit t r : List Char), matchLit lit t = some r →
    ∃ pre, t = pre ++ r ∧ pre.map Char.toLower = lit.map Char.toLower
  | [], t, r, heq => by
    obtain rfl : t = r := Option.some.inj heq
    exact ⟨[], rfl, rfl⟩
  | l :: ls, [], r, heq => by
    exact absurd heq (by simp [matchLit])
  | l :: ls, c :: ts, r, heq => by
    have heq2 : (if c.toLower == l.toLower then matchLit ls ts else none) = some r := heq
    by_cases hc : (c.toLower == l.toLower) = true
    · rw [if_pos hc] at heq2
      obtain ⟨pre, rfl, hmap⟩ := matchLit_sound ls ts r heq2
      exact ⟨c :: pre, rfl, by simp [hmap, beq_iff_eq.mp hc]⟩
    · rw [if_neg (by simpa using hc)] at heq2
      exact absurd heq2 (by simp)

theorem matchLit_complete : ∀ (lit ns u : List Char),
    ns.map Char.toLower = lit.map Char.toLower → matchLit lit (ns ++ u) = some u
  | [], ns, u, hmap => by
    have hns : ns = [] := by
      have := congrArg List.length hmap
      simpa using this
    subst hns
    rfl
  | l :: ls, ns, u, hmap => by
    rcases ns with _ | ⟨c, cs⟩
    · exact absurd (congrArg List.length hmap) (by simp)
    · simp only [List.map_cons, List.cons.injEq] at hmap
      show (if c.toLower == l.toLower then matchLit ls (cs ++ u) else none) = some u
      rw [if_pos (by simpa [beq_iff_eq] using hmap.1)]
      exact matchLit_complete ls cs u hmap.2

theorem searchNotion_sound : ∀ (t : List Char), ∀ {h : List Char},
    searchNotion t = some h → NotionShape t h
  | [], h, heq => by exact absurd heq (by simp [searchNotion])
  | c :: ts, h, heq => by
    have heq2 : (tryNotionAt (c :: ts) <|> searchNotion ts) = some h := heq
    rcases ht : tryNotionAt (c :: ts) with _ | h1
    · rw [ht, Option.none_orElse] at heq2
      obtain ⟨hrun, pre, ns, ws, slugs, rest, hsplit, hns, hws, hslug⟩ :=
        searchNotion_sound ts heq2
      exact ⟨hrun, c :: pre, ns, ws, slugs, rest, by simp [hsplit], hns, hws, hslug⟩
    · rw [ht, Option.some_orElse] at heq2
      obtain rfl : h1 = h := Option.some.inj heq2
      unfold tryNotionAt at ht
      rcases hm : matchLit notionLit (c :: ts) with _ | u <;> rw [hm] at ht
      · exact absurd ht (by simp)
      · obtain ⟨hrun, ws, slugs, rest, hu, hws, hslug⟩ := afterNotionSo_sound ht
        obtain ⟨ns, hts, hns⟩ := matchLit_sound notionLit (c :: ts) u hm
        refine ⟨hrun, [], ns, ws, slugs, rest, ?_, ?_, hws, hslug⟩
        · rw [List.nil_append, hts, hu]
        · rw [hns, notionLit_lower]

theorem searchNotion_complete_aux : ∀ (pre t : List Char),
    (∃ h0, tryNotionAt t = some h0) → ∃ h', searchNotion (pre ++ t) = some h'
  | [], t, ⟨h0, ht⟩ => by
    rcases t with _ | ⟨c, ts⟩
    · exact absurd ht (by simp [tryNotionAt, matchLit, notionLit])
    · refine ⟨h0, ?_⟩
      show (tryNotionAt (c :: ts) <|> searchNotion ts) = some h0
      rw [ht, Option.some_orElse]
  | c :: pre, t, ⟨h0, ht⟩ => by
    obtain ⟨h', ih⟩ := searchNotion_complete_aux pre t ⟨h0, ht⟩
    rcases ht2 : tryNotionAt (c :: (pre ++ t)) with _ | h2
    · refine ⟨h', ?_⟩
      show (tryNotionAt (c :: (pre ++ t)) <|> searchNotion (pre ++ t)) = some h'
      rw [ht2, Option.none_orElse]
      exact ih
    · refine ⟨h2, ?_⟩
      show (tryNotionAt (c :: (pre ++ t)) <|> searchNotion (pre ++ t)) = some h2
      rw [ht2, Option.some_orElse]

theorem searchNotion_complete {t h : List Char} (hshape : NotionShape t h) :
    ∃ h', searchNotion t = some h' := by
  obtain ⟨hrun, pre, ns, ws, slugs, rest, rfl, hns, hws, hslug⟩ := hshape
  apply searchNotion_complete_aux pre (ns ++ (ws ++ (slugs ++ (h ++ rest))))
  have hm : matchLit notionLit (ns ++ (ws ++ (slugs ++ (h ++ rest))))
      = some (ws ++ (slugs ++ (h ++ rest))) :=
    matchLit_complete notionLit ns _ (by rw [hns, notionLit_lower])
  obtain ⟨h', ha⟩ := afterNotionSo_complete rest hws hslug hrun
  refine ⟨h', ?_⟩
  unfold tryNotionAt
  rw [hm]
  exact ha

theorem hex32End_sound {t h : List Char} (heq : hex32End t = some h) :
    Hex32Run h ∧ ∃ rest, t = h ++ rest ∧ (rest = [] ∨ ∃ r, rest = '?' :: r) := by
  unfold hex32End at heq
  rcases hh : hex32Here t with _ | h1 <;> rw [hh] at heq
  · exact absurd heq (by simp)
  · have heq2 : (match t.drop 32 with
        | [] => some h1
        | c :: _ => if c == '?' then some h1 else none) = some h := heq
    obtain ⟨-, hrun, hsplit⟩ := hex32Here_sound hh
    rcases hd : t.drop 32 with _ | ⟨c, r⟩ <;> rw [hd] at heq2
    · obtain rfl : h1 = h := Option.some.inj heq2
      refine ⟨hrun, t.drop 32, hsplit, Or.inl hd⟩
    · have heq3 : (if (c == '?') = true then some h1 else none) = some h := heq2
      by_cases hc : (c == '?') = true
      · rw [if_pos hc] at heq3
        obtain rfl : h1 = h := Option.some.inj heq3
        obtain rfl : c = '?' := beq_iff_eq.mp hc
        exact ⟨hrun, t.drop 32, hsplit, Or.inr ⟨r, hd⟩⟩
      · rw [if_neg hc] at heq3
        exact absurd heq3 (by simp)

theorem hex32End_of {h : List Char} (hh : Hex32Run h) {rest : List Char}
    (hr : rest = [] ∨ ∃ r, rest = '?' :: r) : hex32End (h ++ rest) = some h := by
  unfold hex32End
  rw [hex32Here_of hh rest]
  show (match (h ++ rest).drop 32 with
      | [] => some h
      | c :: _ => if c == '?' then some h else none) = some h
  rw [List.drop_left' hh.1]
  rcases hr with rfl | ⟨r, rfl⟩
  · rfl
  · show (if ('?' == '?') = true then some h else none) = some h
    rw [if_pos (by decide)]

theorem searchLastHex_sound : ∀ (t : List Char), ∀ {h : List Char},
    searchLastHex t = some h → BareShape t h
  | [], h, heq => by exact absurd heq (by simp [searchLastHex])
  | c :: ts, h, heq => by
    have heq2 : (hex32End (c :: ts) <|> searchLastHex ts) = some h := heq
    rcases he : hex32End (c :: ts) with _ | h1
    · rw [he, Option.none_orElse] at heq2
      obtain ⟨hrun, pre, rest, hsplit, hb⟩ := searchLastHex_sound ts heq2
      exact ⟨hrun, c :: pre, rest, by simp [hsplit], hb⟩
    · rw [he, Option.some_orElse] at heq2
      obtain rfl : h1 = h := Option.some.inj heq2
      obtain ⟨hrun, rest, hsplit, hb⟩ := hex32End_sound he
      exact ⟨hrun, [], rest, by simpa using hsplit, hb⟩

theorem searchLastHex_complete_aux : ∀ (pre u : List Char),
    (∃ h0, hex32End u = some h0) → ∃ h', searchLastHex (pre ++ u) = some h'
  | [], u, ⟨h0, hu⟩ => by
    rcases u with _ | ⟨c, ts⟩
    · rw [show hex32End [] = none from rfl] at hu
      exact absurd hu (by simp)
    · refine ⟨h0, ?_⟩
      show (hex32End (c :: ts) <|> searchLastHex ts) = some h0
      rw [hu, Option.some_orElse]
  | c :: pre, u, ⟨h0, hu⟩ => by
    obtain ⟨h', ih⟩ := searchLastHex_complete_aux pre u ⟨h0, hu⟩
    rcases he2 : hex32End (c :: (pre ++ u)) with _ | h2
    · refine ⟨h', ?_⟩
      show (hex32End (c :: (pre ++ u)) <|> searchLastHex (pre ++ u)) = some h'
      rw [he2, Option.none_orElse]
      exact ih
    · refine ⟨h2, ?_⟩
      show (hex32End (c :: (pre ++ u)) <|> searchLastHex (pre ++ u)) = some h2
      rw [he2, Option.some_orElse]

theorem searchLastHex_complete {t h : List Char} (hb : BareShape t h) :
    ∃ h', searchLastHex t = some h' := by
  obtain ⟨hrun, pre, rest, rfl, hre⟩ := hb
  exact searchLastHex_complete_aux pre (h ++ rest) ⟨h, hex32End_of hrun hre⟩

theorem NotionShape_ne_nil {t h : List Char} (hs : NotionShape t h) : t ≠ [] := by
  obtain ⟨-, pre, ns, ws, slugs, rest, heq, hns, -, -⟩ := hs
  intro h0
  rw [h0] at heq
  have hlen0 := congrArg List.length heq
  have hlen : ns.length = 10 := by
    have := congrArg List.length hns
    simpa [notionLit] using this
  simp only [List.length_nil, List.length_append] at hlen0
  omega

theorem BareShape_ne_nil {t h : List Char} (hs : BareShape t h) : t ≠ [] := by
  obtain ⟨hrun, pre, rest, heq, -⟩ := hs
  intro h0
  rw [h0] at heq
  have hlen0 := congrArg List.length heq
  simp only [List.length_nil, List.length_append] at hlen0
  rw [hrun.1] at hlen0
  omega

/-- C2: extractPageId applies its rules in precedence order with first match
winning: an input that is exactly 32 hex characters is returned as-is; an
input in dashed 8-4-4-4-12 UUID shape is returned with the dashes stripped
and case preserved; otherwise an input containing notion.so/ followed by
optional workspace and slug segments terminating in a 32-hex run yields such
a run; otherwise an input containing a 32-hex run followed immediately by
the end or by '?' yields such a run; every other input, that is one whose
trimmed form matches none of the four rule shapes, yields null. -/
theorem C2_extractPageId_contract :
    ∀ s : List Char,
      (Hex32Run s → extractPageId s = some s)
      ∧ (UuidShape s → extractPageId s = some (removeDashes s))
      ∧ (¬ Hex32Run (jsTrim s) → ¬ UuidShape (jsTrim s) →
          (∃ h, NotionShape (jsTrim s) h) →
          ∃ h, NotionShape (jsTrim s) h ∧ extractPageId s = some h)
      ∧ (¬ Hex32Run (jsTrim s) → ¬ UuidShape (jsTrim s) →
          (∀ h, ¬ NotionShape (jsTrim s) h) →
          (∃ h, BareShape (jsTrim s) h) →
          ∃ h, BareShape (jsTrim s) h ∧ extractPageId s = some h)
      ∧ (¬ Hex32Run (jsTrim s) → ¬ UuidShape (jsTrim s) →
          (∀ h, ¬ NotionShape (jsTrim s) h) → (∀ h, ¬ BareShape (jsTrim s) h) →
          extractPageId s = none) := by
  intro s
  refine ⟨?_, ?_, ?_, ?_, ?_⟩
  · intro hh
    have hne : s ≠ [] := by
      intro h0
      rw [h0] at hh
      exact absurd hh.1 (by decide)
    have htrim : jsTrim s = s := jsTrim_eq_self (fun c hc =>
      hexDigit_not_ws (by simpa using List.all_eq_true.mp hh.2 c hc))
    unfold extractPageId
    rw [if_neg hne, htrim, if_pos ((isHex32_iff _).mpr hh)]
  · intro hu
    have hne : s ≠ [] := by
      intro h0
      have := UuidShape_length hu
      rw [h0] at this
      exact absurd this (by decide)
    have htrim : jsTrim s = s := jsTrim_eq_self (fun c hc => by
      rcases UuidShape_chars hu c hc with hhex | rfl
      · exact hexDigit_not_ws hhex
      · decide)
    have h32 : ¬ isHex32 s = true := by
      intro hc
      have := ((isHex32_iff _).mp hc).1
      rw [UuidShape_length hu] at this
      exact absurd this (by decide)
    unfold extractPageId
    rw [if_neg hne, htrim, if_neg h32, if_pos (isDashedUuid_iff.mpr hu)]
  · intro h32 huu ⟨h0, hshape⟩
    have hne : s ≠ [] := by
      intro hs0
      apply NotionShape_ne_nil hshape
      rw [hs0]
      rfl
    obtain ⟨h', hsearch⟩ := searchNotion_complete hshape
    refine ⟨h', searchNotion_sound _ hsearch, ?_⟩
    unfold extractPageId
    rw [if_neg hne, if_neg (fun hc => h32 ((isHex32_iff _).mp hc)),
      if_neg (fun hc => huu (isDashedUuid_iff.mp hc)), hsearch]
  · intro h32 huu hnone ⟨h0, hbare⟩
    have hne : s ≠ [] := by
      intro hs0
      apply BareShape_ne_nil hbare
      rw [hs0]
      rfl
    have hsn : searchNotion (jsTrim s) = none := by
      rcases hsn2 : searchNotion (jsTrim s) with _ | h''
      · rfl
      · exact absurd (searchNotion_sound _ hsn2) (hnone h'')
    obtain ⟨h', hslh⟩ := searchLastHex_complete hbare
    refine ⟨h', searchLastHex_sound _ hslh, ?_⟩
    have hstep : extractPageId s = searchLastHex (jsTrim s) := by
      unfold extractPageId
      rw [if_neg hne, if_neg (fun hc => h32 ((isHex32_iff _).mp hc)),
        if_neg (fun hc => huu (isDashedUuid_iff.mp hc)), hsn]
    rw [hstep, hslh]
  · intro h32 huu hnotion hbare
    by_cases hne : s = []
    · subst hne
      rfl
    · have hsn : searchNotion (jsTrim s) = none := by
        rcases hsn2 : searchNotion (jsTrim s) with _ | h''
        · rfl
        · exact absurd (searchNotion_sound _ hsn2) (hnotion h'')
      have hsl : searchLastHex (jsTrim s) = none := by
        rcases hsl2 : searchLastHex (jsTrim s) with _ | h''
        · rfl
        · exact absurd (searchLastHex_sound _ hsl2) (hbare h'')
      have hstep : extractPageId s = searchLastHex (jsTrim s) := by
        unfold extractPageId
        rw [if_neg hne, if_neg (fun hc => h32 ((isHex32_iff _).mp hc)),
          if_neg (fun hc => huu (isDashedUuid_iff.mp hc)), hsn]
      rw [hstep, hsl]

/-- Witness for C2 on concrete examples: a raw 32-hex id, a dashed uppercase
UUID, and two inputs matching no rule (one of them containing a 32-hex run
that is neither in a notion.so link nor followed by the end or '?'). -/
theorem C2_extractPageId_contract_witness :
    extractPageId "a1b2c3d4e5f6a1b2c3d4e5f6a1b2c3d4".toList
      = some "a1b2c3d4e5f6a1b2c3d4e5f6a1b2c3d4".toList
    ∧ extractPageId "A1B2C3D4-E5F6-A1B2-C3D4-E5F6A1B2C3D4".toList
      = some "A1B2C3D4E5F6A1B2C3D4E5F6A1B2C3D4".toList
    ∧ extractPageId "not a notion link".toList = none
    ∧ extractPageId "xa1b2c3d4e5f6a1b2c3d4e5f6a1b2c3d4x".toList = none := by
  refine ⟨?_, ?_, ?_, ?_⟩
  · exact (C2_extractPageId_contract _).1 ⟨by decide, by decide⟩
  · have hu : UuidShape "A1B2C3D4-E5F6-A1B2-C3D4-E5F6A1B2C3D4".toList :=
      ⟨"A1B2C3D4".toList, "E5F6".toList, "A1B2".toList, "C3D4".toList,
        "E5F6A1B2C3D4".toList, by decide, by decide, by decide, by decide, by decide,
        by decide, by decide, by decide, by decide, by decide, by decide⟩
    have h := (C2_extractPageId_contract "A1B2C3D4-E5F6-A1B2-C3D4-E5F6A1B2C3D4".toList).2.1 hu
    rw [h]
    decide
  · refine (C2_extractPageId_contract "not a notion link".toList).2.2.2.2
      (fun hh => absurd ((isHex32_iff _).mpr hh) (by decide))
      (fun hu => absurd (isDashedUuid_iff.mpr hu) (by decide)) ?_ ?_
    · intro h hs
      obtain ⟨h', he⟩ := searchNotion_complete hs
      rw [show searchNotion (jsTrim "not a notion link".toList) = none from by decide] at he
      exact Option.noConfusion he
    · intro h hs
      obtain ⟨h', he⟩ := searchLastHex_complete hs
      rw [show searchLastHex (jsTrim "not a notion link".toList) = none from by decide] at he
      exact Option.noConfusion he
  · refine (C2_extractPageId_contract "xa1b2c3d4e5f6a1b2c3d4e5f6a1b2c3d4x".toList).2.2.2.2
      (fun hh => absurd ((isHex32_iff _).mpr hh) (by decide))
      (fun hu => absurd (isDashedUuid_iff.mpr hu) (by decide)) ?_ ?_
    · intro h hs
      obtain ⟨h', he⟩ := searchNotion_complete hs
      rw [show searchNotion (jsTrim "xa1b2c3d4e5f6a1b2c3d4e5f6a1b2c3d4x".toList) = none
        from by decide] at he
      exact Option.noConfusion he
    · intro h hs
      obtain ⟨h', he⟩ := searchLastHex_complete hs
      rw [show searchLastHex (jsTrim "xa1b2c3d4e5f6a1b2c3d4e5f6a1b2c3d4x".toList) = none
        from by decide] at he
      exact Option.noConfusion he

end NWM
